import Mathlib

/-!
# Verification of the MLM commission engine

A shallow embedding, in Lean 4, of the core pipeline of the commission
engine: input validation (`utils.ValidationUtils.validate_partner_data`),
forest construction (`tree_components.TreeBuilder`), structural validation
(`tree_components.CycleDetector`, `tree_components.TreeValidator`), daily
profit derivation (`tree_components.DailyProfitCalculator`), commission
aggregation (`commission_components.CommissionCalculator`), statistics
(`commission_components.TreeStatistics`) and the engine facade
(`commission_engine.CommissionEngine`).

Conventions of the embedding:
* Python numbers (`int`/`float`) are modelled by `ℚ` (exact arithmetic);
  Python `round(x, 2)` is modelled by exact round-half-to-even at two
  decimal places.
* Python's dynamically typed JSON-like values are modelled by `PyVal`.
* The `partners` dict of `PartnerTree` is an insertion-ordered association
  list (Python dicts preserve insertion order; overwriting keeps the
  original position of the key).
* Partner objects live in the `partners` dict keyed by their `id`
  (`add_partner` always inserts at key `partner.id`); object references
  (`children`, `roots`) are modelled by those integer ids, with lookups
  into the dict standing for pointer dereference.
* Exceptions are modelled by `Except PyErr`; the constructors of `PyErr`
  record the structured payload of each Python error message.
-/

namespace MLM

/-- A dynamically-typed Python value, as found in parsed JSON input.
`pybool` is separate from `pyint` but — as in Python, where `bool` is a
subclass of `int` — counts as an integer for `isinstance` checks and
compares equal to `0`/`1` as a dict key. -/
inductive PyVal where
  | pynone
  | pybool (b : Bool)
  | pyint (n : Int)
  | pyfloat (q : ℚ)
  | pystr (s : String)
  | pylist (l : List PyVal)
  | pydict (fields : List (String × PyVal))

mutual

/-- Structural equality on `PyVal` (decision procedure; `deriving` cannot
handle the nested inductive). -/
def PyVal.beq : PyVal → PyVal → Bool
  | .pynone, .pynone => true
  | .pybool a, .pybool b => a = b
  | .pyint a, .pyint b => a = b
  | .pyfloat a, .pyfloat b => a = b
  | .pystr a, .pystr b => a = b
  | .pylist a, .pylist b => PyVal.beqList a b
  | .pydict a, .pydict b => PyVal.beqFields a b
  | _, _ => false

/-- Elementwise `PyVal.beq` on lists. -/
def PyVal.beqList : List PyVal → List PyVal → Bool
  | [], [] => true
  | a :: la, b :: lb => PyVal.beq a b && PyVal.beqList la lb
  | _, _ => false

/-- Elementwise `PyVal.beq` on keyed fields. -/
def PyVal.beqFields : List (String × PyVal) → List (String × PyVal) → Bool
  | [], [] => true
  | (k₁, v₁) :: la, (k₂, v₂) :: lb =>
      k₁ = k₂ && PyVal.beq v₁ v₂ && PyVal.beqFields la lb
  | _, _ => false

end

mutual

theorem PyVal.beq_iff : ∀ (a b : PyVal), PyVal.beq a b = true ↔ a = b
  | .pynone, b => by cases b <;> simp [PyVal.beq]
  | .pybool a, b => by cases b <;> simp [PyVal.beq]
  | .pyint a, b => by cases b <;> simp [PyVal.beq]
  | .pyfloat a, b => by cases b <;> simp [PyVal.beq]
  | .pystr a, b => by cases b <;> simp [PyVal.beq]
  | .pylist a, b => by
      cases b
      case pylist l =>
        simp only [PyVal.beq, PyVal.pylist.injEq]
        exact PyVal.beqList_iff a l
      all_goals simp [PyVal.beq]
  | .pydict a, b => by
      cases b
      case pydict l =>
        simp only [PyVal.beq, PyVal.pydict.injEq]
        exact PyVal.beqFields_iff a l
      all_goals simp [PyVal.beq]

theorem PyVal.beqList_iff : ∀ (a b : List PyVal), PyVal.beqList a b = true ↔ a = b
  | [], b => by cases b <;> simp [PyVal.beqList]
  | x :: la, b => by
      cases b with
      | nil => simp [PyVal.beqList]
      | cons y lb =>
        simp only [PyVal.beqList, Bool.and_eq_true, List.cons.injEq]
        rw [PyVal.beq_iff, PyVal.beqList_iff]

theorem PyVal.beqFields_iff :
    ∀ (a b : List (String × PyVal)), PyVal.beqFields a b = true ↔ a = b
  | [], b => by cases b <;> simp [PyVal.beqFields]
  | (k₁, v₁) :: la, b => by
      cases b with
      | nil => simp [PyVal.beqFields]
      | cons y lb =>
        obtain ⟨k₂, v₂⟩ := y
        simp only [PyVal.beqFields, Bool.and_eq_true, List.cons.injEq, Prod.mk.injEq,
          decide_eq_true_eq]
        rw [PyVal.beq_iff, PyVal.beqFields_iff]

end

instance : DecidableEq PyVal := fun a b =>
  decidable_of_iff (PyVal.beq a b = true) (PyVal.beq_iff a b)

/-- Python's `type(x).__name__`, used in error messages. -/
def pyTypeName : PyVal → String
  | .pynone => "NoneType"
  | .pybool _ => "bool"
  | .pyint _ => "int"
  | .pyfloat _ => "float"
  | .pystr _ => "str"
  | .pylist _ => "list"
  | .pydict _ => "dict"

/-- `isinstance(v, int)` — true for `int` and (Python subclassing) `bool`. -/
def isInstInt : PyVal → Bool
  | .pyint _ => true
  | .pybool _ => true
  | _ => false

/-- `isinstance(v, (int, float))`. -/
def isInstNumeric : PyVal → Bool
  | .pyint _ => true
  | .pybool _ => true
  | .pyfloat _ => true
  | _ => false

/-- Structured payloads of the exceptions raised by the engine
(`config.ErrorMessages` and the inline message strings). -/
inductive PyErr where
  /-- `ValueError(INVALID_INPUT_TYPE)` from `validate_partner_data` /
  `DailyProfitCalculator._validate_date`. -/
  | invalidInputType (expected : String) (actual : String)
  /-- `ValueError("Partner data at index {i} must be a dictionary")`. -/
  | notADict (idx : Nat)
  /-- `ValueError("Partner at index {i} missing required fields: ...")`. -/
  | missingRequired (idx : Nat) (missing : List String)
  /-- `ValueError("Partner ID at index {i} must be integer")`. -/
  | idNotInteger (idx : Nat)
  /-- `ValueError("Monthly revenue at index {i} must be numeric")`. -/
  | revenueNotNumeric (idx : Nat)
  /-- `TypeError("Expected list, got ...")` from `CommissionEngine.load_partners`. -/
  | typeErrorNotList (actual : String)
  /-- `ValueError("Partner data cannot be empty")` from `CommissionEngine.load_partners`. -/
  | emptyData
  /-- `ValueError(PARENT_NOT_FOUND)`: parent value and orphan partner id. -/
  | parentNotFound (parentVal : PyVal) (partnerId : Int)
  /-- `ValueError(CYCLE_DETECTED)`: the partner id the detection started from. -/
  | cycleDetected (partnerId : Int)
  /-- `ValueError(NO_ROOT_PARTNERS)`. -/
  | noRootPartners
  /-- `ValueError(INVALID_DATE)` from `calendar.monthrange`. -/
  | invalidDate (year : Int) (month : Int)
  /-- `RuntimeError(NO_PARTNERS_LOADED)` from `_ensure_tree_loaded`. -/
  | notLoaded
deriving DecidableEq

namespace Constants

/-- `Constants.COMMISSION_RATE = 0.05`. -/
def COMMISSION_RATE : ℚ := 5 / 100

end Constants

/-- One partner object (`tree_components.Partner`).  `parent_id` stores the
raw value of the input record's `parent_id` field (`none` models Python
`None`, i.e. a root); `children` stores the ids of the referenced child
objects, in append order. -/
structure Partner where
  id : Int
  parent_id : Option PyVal
  name : PyVal
  monthly_revenue : ℚ
  children : List Int
  daily_profit : ℚ
  total_commission : ℚ
deriving DecidableEq

/-- `Partner.is_root`: `parent_id is None`. -/
def Partner.is_root (p : Partner) : Bool := p.parent_id.isNone

/-- `Partner.is_leaf`: `len(children) == 0`. -/
def Partner.is_leaf (p : Partner) : Bool := p.children.isEmpty

/-- Insertion-ordered dict lookup (`dict.get` / `dict[k]`). -/
def dictGet (t : List (Int × Partner)) (k : Int) : Option Partner :=
  match t with
  | [] => none
  | (k₁, v) :: rest => if k₁ = k then some v else dictGet rest k

/-- Insertion-ordered dict write `d[k] = v`: overwriting keeps the key's
original position, a fresh key is appended at the end. -/
def dictSet (t : List (Int × Partner)) (k : Int) (v : Partner) : List (Int × Partner) :=
  match t with
  | [] => [(k, v)]
  | (k₁, v₁) :: rest => if k₁ = k then (k, v) :: rest else (k₁, v₁) :: dictSet rest k v

/-- In-place mutation of the object stored at key `k` (Python mutates the
object; the dict structure is unchanged). -/
def dictUpdate (t : List (Int × Partner)) (k : Int) (f : Partner → Partner) :
    List (Int × Partner) :=
  match t with
  | [] => []
  | (k₁, v) :: rest =>
      if k₁ = k then (k₁, f v) :: dictUpdate rest k f
      else (k₁, v) :: dictUpdate rest k f

/-- The tree holder (`tree_components.PartnerTree`): the `partners` dict and
the list of (ids of) the objects appended to `roots` by `add_partner`. -/
structure PartnerTree where
  partners : List (Int × Partner)
  roots : List Int
deriving DecidableEq

/-- `PartnerTree.add_partner`. -/
def PartnerTree.add_partner (t : PartnerTree) (p : Partner) : PartnerTree :=
  { partners := dictSet t.partners p.id p
    roots := if p.is_root then t.roots ++ [p.id] else t.roots }

/-- `PartnerTree.get_partner`. -/
def PartnerTree.get_partner (t : PartnerTree) (k : Int) : Option Partner :=
  dictGet t.partners k

/-- `PartnerTree.get_all_partners` — `list(self.partners.values())`. -/
def PartnerTree.get_all_partners (t : PartnerTree) : List Partner :=
  t.partners.map Prod.snd

/-- `PartnerTree.get_roots`. -/
def PartnerTree.get_roots (t : PartnerTree) : List Int :=
  t.roots

/-- `PartnerTree.size`. -/
def PartnerTree.size (t : PartnerTree) : Nat :=
  t.partners.length

/-- `item.get(k)` on a record dict (first matching key). -/
def getField (item : List (String × PyVal)) (k : String) : Option PyVal :=
  match item with
  | [] => none
  | (k₁, v) :: rest => if k₁ = k then some v else getField rest k

namespace MathUtils

/-- `MathUtils.safe_divide` — `numerator / denominator if denominator != 0
else default`; every call site uses the default `default = 0.0`, which is
baked in here. -/
def safe_divide (numerator denominator : ℚ) : ℚ :=
  if denominator ≠ 0 then numerator / denominator else 0

/-- Python `round(q)`: round half to even. -/
def pyRound (q : ℚ) : Int :=
  let f := Int.floor q
  let r := q - f
  if r < 1 / 2 then f
  else if 1 / 2 < r then f + 1
  else if f % 2 = 0 then f else f + 1

/-- `MathUtils.round_currency` — Python `round(value, 2)` (idealized to
exact round-half-to-even at two decimal places). -/
def round_currency (value : ℚ) : ℚ :=
  (pyRound (value * 100) : ℚ) / 100

end MathUtils

namespace ValidationUtils

/-- The per-record body of the `validate_partner_data` loop at index `idx`:
dict check, required-fields check, `id` is `int`, `monthly_revenue` is
numeric. -/
def validateRecord (idx : Nat) (itemv : PyVal) : Except PyErr Unit :=
  match itemv with
  | .pydict item =>
    let missing := ["id", "monthly_revenue"].filter (fun f => getField item f = none)
    if missing ≠ [] then .error (.missingRequired idx missing)
    else if ¬ isInstInt ((getField item "id").getD .pynone) then .error (.idNotInteger idx)
    else if ¬ isInstNumeric ((getField item "monthly_revenue").getD .pynone) then
      .error (.revenueNotNumeric idx)
    else .ok ()
  | _ => .error (.notADict idx)

/-- Validate all records starting at index `idx`. -/
def validateRecords (idx : Nat) : List PyVal → Except PyErr Unit
  | [] => .ok ()
  | itemv :: rest =>
    match validateRecord idx itemv with
    | .error e => .error e
    | .ok () => validateRecords (idx + 1) rest

/-- `ValidationUtils.validate_partner_data`: `data` must be a list, and each
record must be a well-formed dictionary.  (No emptiness check here — that
lives in `CommissionEngine.load_partners`.) -/
def validate_partner_data (data : PyVal) : Except PyErr Unit :=
  match data with
  | .pylist items => validateRecords 0 items
  | _ => .error (.invalidInputType "list" (pyTypeName data))

end ValidationUtils

/-- Integer view of a Python dict key: `bool` hashes/compares as `0`/`1`, a
whole-valued `float` compares equal to the corresponding `int` key. -/
def pyKey : PyVal → Option Int
  | .pyint n => some n
  | .pybool b => some (if b then 1 else 0)
  | .pyfloat q => if q.den = 1 then some q.num else none
  | _ => none

/-- `q.den = 1` for the rationals produced by `asRat` on ints. -/
def asRat : PyVal → ℚ
  | .pyint n => (n : ℚ)
  | .pybool b => if b then 1 else 0
  | .pyfloat q => q
  | _ => 0

namespace TreeBuilder

/-- The `Partner(...)` construction inside `TreeBuilder._create_partners`:
`id` is an `int` (guaranteed by prior validation; `pyKey` mirrors how a
Python `bool` id would behave as a dict key), `parent_id` is taken raw via
`item.get('parent_id')` (an explicit `None` is the same as an absent key),
`name` defaults to `''`, `monthly_revenue` is numeric. -/
def createPartner (item : List (String × PyVal)) : Partner :=
  { id := (pyKey ((getField item "id").getD .pynone)).getD 0
    parent_id :=
      match getField item "parent_id" with
      | none => none
      | some .pynone => none
      | some v => some v
    name := (getField item "name").getD (.pystr "")
    monthly_revenue := asRat ((getField item "monthly_revenue").getD .pynone)
    children := []
    daily_profit := 0
    total_commission := 0 }

/-- Record dict of a validated list element (validation has ruled out
non-dict items). -/
def asItem : PyVal → List (String × PyVal)
  | .pydict item => item
  | _ => []

/-- `TreeBuilder._create_partners`: build one `Partner` per record and
`add_partner` it into the tree. -/
def create_partners (items : List PyVal) (t : PartnerTree) : PartnerTree :=
  items.foldl (fun acc itemv => acc.add_partner (createPartner (asItem itemv))) t

/-- One step of `TreeBuilder._build_relationships`: skip roots, look up the
parent (a missing parent raises `PARENT_NOT_FOUND` with both ids), and
append the child to the parent object's `children`. -/
def wirePartner (acc : List (Int × Partner)) (p : Partner) :
    Except PyErr (List (Int × Partner)) :=
  match p.parent_id with
  | none => .ok acc
  | some pv =>
    match pyKey pv with
    | none => .error (.parentNotFound pv p.id)
    | some k =>
      match dictGet acc k with
      | none => .error (.parentNotFound pv p.id)
      | some _ => .ok (dictUpdate acc k (fun q => { q with children := q.children ++ [p.id] }))

/-- The loop of `TreeBuilder._build_relationships` over the snapshot list of
partner objects, threading the mutated dict. -/
def wireAll (acc : List (Int × Partner)) : List Partner → Except PyErr (List (Int × Partner))
  | [] => .ok acc
  | p :: rest =>
    match wirePartner acc p with
    | .error e => .error e
    | .ok acc₁ => wireAll acc₁ rest

/-- `TreeBuilder._build_relationships`: iterate over the snapshot of
`get_all_partners()` (only immutable fields of the snapshot are read) while
mutating the parents' `children` lists in the dict. -/
def build_relationships (t : PartnerTree) : Except PyErr PartnerTree :=
  match wireAll t.partners t.get_all_partners with
  | .error e => .error e
  | .ok ps => .ok { t with partners := ps }

/-- `TreeBuilder.build_from_data`: validate, create all partner objects,
then build parent-child relationships. -/
def build_from_data (data : PyVal) : Except PyErr PartnerTree :=
  match ValidationUtils.validate_partner_data data with
  | .error e => .error e
  | .ok () =>
    let items := match data with | .pylist l => l | _ => []
    build_relationships (create_partners items ⟨[], []⟩)

end TreeBuilder

namespace CycleDetector

/-- The `while` loop of `CycleDetector._has_cycle_from_partner`, walking the
chain of parent links from the object stored at key `cur`.  `path` is
`visited_in_path`; the returned set is the final `visited_in_path`, whose
elements the Python loop also added to the global `self.visited`.
A `current` whose lookup fails models `current is None` (loop exit); a
`parent_id` that is no valid dict key models a failed
`tree.get_partner(current.parent_id)`. -/
def parentWalk (t : List (Int × Partner)) (cur : Int) (path : Finset Int) :
    Bool × Finset Int :=
  match hget : dictGet t cur with
  | none => (false, path)
  | some p =>
    if cur ∈ path then (true, path)
    else
      let path1 := insert cur path
      match p.parent_id with
      | none => (false, path1)
      | some pv =>
        match pyKey pv with
        | none => (false, path1)
        | some q => parentWalk t q path1
termination_by (((t.map Prod.fst).toFinset) \ path).card
decreasing_by
  have hk : cur ∈ (t.map Prod.fst).toFinset := by
    apply List.mem_toFinset.mpr
    clear * - hget
    induction t with
    | nil => simp [dictGet] at hget
    | cons hd tl ih =>
      simp only [dictGet] at hget
      split at hget
      · simp_all
      · simp [ih hget]
  apply Finset.card_lt_card
  constructor
  · intro x hx
    simp only [Finset.mem_sdiff, Finset.mem_insert] at hx ⊢
    exact ⟨hx.1, fun hxp => hx.2 (Or.inr hxp)⟩
  · intro hsub
    have hcur : cur ∈ (t.map Prod.fst).toFinset \ path := by
      apply Finset.mem_sdiff.mpr
      exact ⟨hk, by assumption⟩
    have h₂ := hsub hcur
    simp at h₂

/-- The loop of `CycleDetector.has_cycles` over `get_all_partners()`:
`visited` is the global `self.visited`; returns the id of the partner whose
walk detected a cycle (the id interpolated into `CYCLE_DETECTED`), or
`none`. -/
def hasCyclesAux (t : List (Int × Partner)) :
    List Partner → Finset Int → Option Int
  | [], _ => none
  | p :: rest, visited =>
    if p.id ∈ visited then hasCyclesAux t rest visited
    else
      match parentWalk t p.id ∅ with
      | (true, _) => some p.id
      | (false, s) => hasCyclesAux t rest (visited ∪ s)

/-- `CycleDetector.has_cycles`: raises `ValueError(CYCLE_DETECTED)` when one
of the parent-link walks revisits an id, otherwise returns (`False`). -/
def has_cycles (t : PartnerTree) : Except PyErr Unit :=
  match hasCyclesAux t.partners t.get_all_partners ∅ with
  | some pid => .error (.cycleDetected pid)
  | none => .ok ()

end CycleDetector

namespace TreeValidator

/-- `TreeValidator.validate`: cycles are checked first, then the existence
of at least one root. -/
def validate (t : PartnerTree) : Except PyErr Unit :=
  match CycleDetector.has_cycles t with
  | .error e => .error e
  | .ok () => if t.get_roots = [] then .error .noRootPartners else .ok ()

end TreeValidator

/-- The reference date (`datetime`): only its `year`/`month` are consumed by
`DailyProfitCalculator` (via `calendar.monthrange`). -/
structure PyDate where
  year : Int
  month : Int
deriving DecidableEq

namespace CalendarPy

/-- `calendar.isleap` (Python `%` on a positive modulus is `Int.emod`). -/
def isleap (y : Int) : Bool :=
  decide (y % 4 = 0 ∧ (y % 100 ≠ 0 ∨ y % 400 = 0))

/-- `calendar.monthrange(year, month)[1]`: the number of days of the month,
leap years accounted for in February; raises (a subclass of) `ValueError`
for a month outside `1..12`, re-raised by `_get_days_in_month` as
`ValueError(INVALID_DATE)`. -/
def monthrangeDays (y m : Int) : Except PyErr Nat :=
  if 1 ≤ m ∧ m ≤ 12 then
    .ok (if m = 2 then (if isleap y then 29 else 28)
         else if m = 4 ∨ m = 6 ∨ m = 9 ∨ m = 11 then 30 else 31)
  else .error (.invalidDate y m)

end CalendarPy

namespace DailyProfitCalculator

/-- The body of the mutation loop of `calculate_daily_profits`:
`partner.daily_profit = MathUtils.safe_divide(partner.monthly_revenue,
days_in_month)`. -/
def setDaily (days : ℚ) (kv : Int × Partner) : Int × Partner :=
  (kv.1, { kv.2 with daily_profit := MathUtils.safe_divide kv.2.monthly_revenue days })

/-- `DailyProfitCalculator.calculate_daily_profits` with an explicit
reference date (the Python `target_date=None` default substitutes
`datetime.now()`; `_validate_date`'s `isinstance(target_date, datetime)`
check is vacuous here since `PyDate` is the only date type).  Computes
`days_in_month` once, then sets
`partner.daily_profit = safe_divide(partner.monthly_revenue, days_in_month)`
on every partner object. -/
def calculate_daily_profits (t : PartnerTree) (target_date : PyDate) :
    Except PyErr PartnerTree :=
  match CalendarPy.monthrangeDays target_date.year target_date.month with
  | .error e => .error e
  | .ok days => .ok { t with partners := t.partners.map (setDaily (days : ℚ)) }

end DailyProfitCalculator

/-- Python `str(n)` for a natural number: its decimal digit string. -/
def natStr (n : Nat) : String :=
  if n = 0 then "0"
  else ⟨((Nat.digits 10 n).map (fun d => Char.ofNat (48 + d))).reverse⟩

/-- Python `str(i)` for an `int`: decimal digits, `-`-prefixed when
negative. -/
def intStr (i : Int) : String :=
  if i < 0 then "-" ++ natStr i.natAbs else natStr i.natAbs

namespace CommissionCalculator

/-- `CommissionCalculator._reset_commissions`. -/
def reset_commissions (ps : List (Int × Partner)) : List (Int × Partner) :=
  ps.map (fun kv => (kv.1, { kv.2 with total_commission := 0 }))

/-- `CommissionCalculator._calculate_subtree_commission`, the post-order
DFS.  The Python recursion is on child object references and total because
a validated forest is acyclic; the embedding threads the mutated dict and
uses a fuel bounded by the dict size (`calculate_commissions` passes
`|partners| + 1`, which exceeds the depth of any acyclic forest, so the
`fuel = 0` and failed-lookup branches are unreachable there).  Reads of
`partner.daily_profit` after the child loop go through the current dict
state, as Python reads the live object. -/
def calcSubtree (t : List (Int × Partner)) : Nat → Int → (List (Int × Partner)) × ℚ
  | 0, _ => (t, 0)
  | fuel + 1, pid =>
    match dictGet t pid with
    | none => (t, 0)
    | some p =>
      let res := p.children.foldl
        (fun acc cid =>
          let r := calcSubtree acc.1 fuel cid
          (r.1, acc.2 + r.2)) (t, 0)
      let subtree_profit := res.2 + ((dictGet res.1 pid).getD p).daily_profit
      let descendants_profit := subtree_profit - ((dictGet res.1 pid).getD p).daily_profit
      (dictUpdate res.1 pid
        (fun q => { q with total_commission := descendants_profit * Constants.COMMISSION_RATE }),
       subtree_profit)

/-- `CommissionCalculator._format_results`: `{str(partner.id):
round_currency(partner.total_commission)}` over `get_all_partners()`. -/
def format_results (ps : List (Int × Partner)) : List (String × ℚ) :=
  ps.map (fun kv => (intStr kv.2.id, MathUtils.round_currency kv.2.total_commission))

/-- `CommissionCalculator.calculate_commissions`: reset, then post-order
traversal from every root, then format.  Returns the mutated tree together
with the result mapping. -/
def calculate_commissions (t : PartnerTree) : PartnerTree × List (String × ℚ) :=
  let ps₀ := reset_commissions t.partners
  let psN := t.get_roots.foldl
    (fun ps r => (calcSubtree ps (t.partners.length + 1) r).1) ps₀
  ({ t with partners := psN }, format_results psN)

/-- The inner child loop of `calcSubtree`, named so the proofs can state
facts about the intermediate fold state. -/
def childFold (fuel : Nat) (l : List Int)
    (st : (List (Int × Partner)) × ℚ) : (List (Int × Partner)) × ℚ :=
  l.foldl (fun acc cid =>
    let r := calcSubtree acc.1 fuel cid
    (r.1, acc.2 + r.2)) st

end CommissionCalculator

namespace TreeStatistics

/-- `TreeStatistics._calculate_depth_from_node` (fuel as in `calcSubtree`:
unreachable branches return the accumulator). -/
def depthFromNode (ps : List (Int × Partner)) : Nat → Int → Nat → Nat
  | 0, _, current_depth => current_depth
  | fuel + 1, pid, current_depth =>
    match dictGet ps pid with
    | none => current_depth
    | some p =>
      if p.is_leaf then current_depth
      else p.children.foldl
        (fun m cid => max m (depthFromNode ps fuel cid (current_depth + 1))) current_depth

/-- The output dict of `TreeStatistics.get_stats`. -/
structure Stats where
  total_partners : Nat
  root_partners : Nat
  leaf_partners : Nat
  max_depth : Nat
deriving DecidableEq

/-- `TreeStatistics.get_stats`. -/
def get_stats (t : PartnerTree) : Stats :=
  { total_partners := t.size
    root_partners := t.get_roots.length
    leaf_partners := (t.get_all_partners.filter (fun p => p.is_leaf)).length
    max_depth := t.get_roots.foldl
      (fun m r => max m (depthFromNode t.partners (t.partners.length + 1) r 0)) 0 }

/-- Insertion-ordered `level_counts` dict lookup. -/
def levelGet (m : List (Nat × Nat)) (k : Nat) : Option Nat :=
  match m with
  | [] => none
  | (k₁, v) :: rest => if k₁ = k then some v else levelGet rest k

/-- Insertion-ordered `level_counts` dict write. -/
def levelSet (m : List (Nat × Nat)) (k : Nat) (v : Nat) : List (Nat × Nat) :=
  match m with
  | [] => [(k, v)]
  | (k₁, v₁) :: rest => if k₁ = k then (k, v) :: rest else (k₁, v₁) :: levelSet rest k v

/-- `TreeStatistics._count_partners_by_level`. -/
def countByLevel (ps : List (Int × Partner)) :
    Nat → Int → Nat → List (Nat × Nat) → List (Nat × Nat)
  | 0, _, _, counts => counts
  | fuel + 1, pid, level, counts =>
    match dictGet ps pid with
    | none => counts
    | some p =>
      let counts1 := levelSet counts level ((levelGet counts level).getD 0 + 1)
      p.children.foldl (fun acc cid => countByLevel ps fuel cid (level + 1) acc) counts1

/-- `TreeStatistics.get_level_distribution`. -/
def get_level_distribution (t : PartnerTree) : List (Nat × Nat) :=
  t.get_roots.foldl
    (fun acc r => countByLevel t.partners (t.partners.length + 1) r 0 acc) []

end TreeStatistics

namespace CommissionEngine

/-- `CommissionEngine._ensure_tree_loaded`: `RuntimeError(NO_PARTNERS_LOADED)`
when `self.tree is None`. -/
def ensure_tree_loaded (s : Option PartnerTree) : Except PyErr PartnerTree :=
  match s with
  | none => .error .notLoaded
  | some t => .ok t

/-- `CommissionEngine.load_partners`: the `try` body performs the engine's
own list/emptiness checks, validates the record structure, builds the tree
(assigning `self.tree`), and validates the structure; the `except` clause
resets `self.tree = None` and re-raises.  `s₀` is the engine state before
the call (always overwritten).  (A non-list `data` without `len()` would
raise `TypeError` already at the entry `logger.info(f"Loading {len(data)}
...")`; either way a `TypeError` propagates and the state resets.) -/
def load_partners (s₀ : Option PartnerTree) (data : PyVal) :
    Option PartnerTree × Except PyErr Unit :=
  match data with
  | .pylist items =>
    if items.isEmpty then (none, .error .emptyData)
    else
      match ValidationUtils.validate_partner_data data with
      | .error e => (none, .error e)
      | .ok () =>
        match TreeBuilder.build_from_data data with
        | .error e => (none, .error e)
        | .ok tr =>
          match TreeValidator.validate tr with
          | .error e => (none, .error e)
          | .ok () => (some tr, .ok ())
  | _ => (none, .error (.typeErrorNotList (pyTypeName data)))

/-- `CommissionEngine.calculate_daily_profits` (the date-derivation error,
raised before the mutation loop runs, leaves the state unchanged). -/
def calculate_daily_profits (s : Option PartnerTree) (target_date : PyDate) :
    Option PartnerTree × Except PyErr Unit :=
  match ensure_tree_loaded s with
  | .error e => (s, .error e)
  | .ok t =>
    match DailyProfitCalculator.calculate_daily_profits t target_date with
    | .error e => (s, .error e)
    | .ok t₁ => (some t₁, .ok ())

/-- `CommissionEngine.calculate_commissions`. -/
def calculate_commissions (s : Option PartnerTree) :
    Option PartnerTree × Except PyErr (List (String × ℚ)) :=
  match ensure_tree_loaded s with
  | .error e => (s, .error e)
  | .ok t =>
    let r := CommissionCalculator.calculate_commissions t
    (some r.1, .ok r.2)

/-- `CommissionEngine.get_stats`. -/
def get_stats (s : Option PartnerTree) : Except PyErr TreeStatistics.Stats :=
  match ensure_tree_loaded s with
  | .error e => .error e
  | .ok t => .ok (TreeStatistics.get_stats t)

/-- `CommissionEngine.get_level_distribution`. -/
def get_level_distribution (s : Option PartnerTree) :
    Except PyErr (List (Nat × Nat)) :=
  match ensure_tree_loaded s with
  | .error e => .error e
  | .ok t => .ok (TreeStatistics.get_level_distribution t)

end CommissionEngine

/-! ## Spec-side notions

The specification describes the forest through parent links ("no id is
reachable from itself by following `parent_id` links") and through rooted
subtrees ("commission is earned on the aggregated profit of the strict
descendants").  These notions are defined here independently of the
traversal code above: `pstep` is one hop along a parent link, and `PTree`
is an explicit rooted tree extracted from the flat dict by `unflatten`. -/

/-- One hop along a `parent_id` link: the node stored at `i` declares a
parent whose dict key is `j`. -/
def pstep (t : List (Int × Partner)) (i j : Int) : Prop :=
  ∃ p, dictGet t i = some p ∧ ∃ pv, p.parent_id = some pv ∧ pyKey pv = some j

/-- A cycle: some id is reachable from itself by repeatedly following
`parent_id` links (at least one hop). -/
def cycleExists (t : List (Int × Partner)) : Prop :=
  ∃ i, Relation.TransGen (pstep t) i i

/-- A rooted tree of partner objects: the shape the object graph of a
validated forest has when followed through `children` references. -/
inductive PTree where
  | node : Partner → List PTree → PTree

mutual

/-- Sum of `daily_profit` over all nodes of the subtree (the spec's
"subtree profit"). -/
def PTree.profitSum : PTree → ℚ
  | .node p cs => p.daily_profit + PTree.profitSumList cs

/-- Sum of `PTree.profitSum` over a list of subtrees. -/
def PTree.profitSumList : List PTree → ℚ
  | [] => 0
  | c :: cs => PTree.profitSum c + PTree.profitSumList cs

end

/-- Sum of `daily_profit` over the strict descendants of the root: the
profit of the children's subtrees, the root's own profit excluded. -/
def PTree.strictDescProfit : PTree → ℚ
  | .node _ cs => PTree.profitSumList cs

mutual

/-- All node-rooted subtrees of a tree (the tree itself included). -/
def PTree.subtrees : PTree → List PTree
  | .node p cs => .node p cs :: PTree.subtreesList cs

/-- All node-rooted subtrees of a list of trees. -/
def PTree.subtreesList : List PTree → List PTree
  | [] => []
  | c :: cs => PTree.subtrees c ++ PTree.subtreesList cs

end

mutual

/-- The ids of all nodes of the tree, in preorder. -/
def PTree.ids : PTree → List Int
  | .node p cs => p.id :: PTree.idsList cs

/-- The ids of all nodes of a list of trees. -/
def PTree.idsList : List PTree → List Int
  | [] => []
  | c :: cs => PTree.ids c ++ PTree.idsList cs

end

/-- The partner object at the root of the tree. -/
def PTree.rootPartner : PTree → Partner
  | .node p _ => p

/-- The id of the root node of the tree. -/
def PTree.rootId : PTree → Int
  | .node p _ => p.id

/-- Extract the rooted tree hanging at dict key `pid` by following
`children` ids, with a fuel bound on the depth; `none` when a child id is
dangling or the structure is deeper than the fuel (as a cyclic `children`
graph is). -/
def unflatten (ps : List (Int × Partner)) : Nat → Int → Option PTree
  | 0, _ => none
  | fuel + 1, pid =>
    match dictGet ps pid with
    | none => none
    | some p =>
      match p.children.mapM (unflatten ps fuel) with
      | none => none
      | some cs => some (.node p cs)

/-- Extract the whole forest below `roots`, with the same fuel
`|partners| + 1` that `calculate_commissions` hands its traversal; succeeds
exactly on the forest-shaped trees the validated pipeline produces. -/
def unflattenForest (t : PartnerTree) : Option (List PTree) :=
  t.get_roots.mapM (unflatten t.partners (t.partners.length + 1))

/-- The full in-scope pipeline on a record list: Builder, then Validator,
then Profit Deriver, then Commission Aggregator (the sequence
`CommissionEngine.process_file` runs between reading and writing JSON). -/
def runPipeline (data : PyVal) (target_date : PyDate) :
    Except PyErr (PartnerTree × List (String × ℚ)) :=
  match TreeBuilder.build_from_data data with
  | .error e => .error e
  | .ok t =>
    match TreeValidator.validate t with
    | .error e => .error e
    | .ok () =>
      match DailyProfitCalculator.calculate_daily_profits t target_date with
      | .error e => .error e
      | .ok t₁ => .ok (CommissionCalculator.calculate_commissions t₁)

/-! ## Association-list dict lemmas -/

theorem dictGet_mem {t : List (Int × Partner)} {k : Int} {v : Partner}
    (h : dictGet t k = some v) : (k, v) ∈ t := by
  induction t with
  | nil => simp [dictGet] at h
  | cons hd tl ih =>
    obtain ⟨k₁, v₁⟩ := hd
    simp only [dictGet] at h
    split at h
    · cases h
      simp_all
    · simp [ih h]

theorem dictGet_some_key_mem {t : List (Int × Partner)} {k : Int} {v : Partner}
    (h : dictGet t k = some v) : k ∈ t.map Prod.fst := by
  have := dictGet_mem h
  exact List.mem_map.mpr ⟨(k, v), this, rfl⟩

theorem dictGet_none_iff {t : List (Int × Partner)} {k : Int} :
    dictGet t k = none ↔ k ∉ t.map Prod.fst := by
  induction t with
  | nil => simp [dictGet]
  | cons hd tl ih =>
    obtain ⟨k₁, v₁⟩ := hd
    simp only [dictGet, List.map_cons, List.mem_cons]
    split <;> rename_i hk
    · simp [hk.symm]
    · simp only [ih]
      constructor
      · intro h hk2
        rcases hk2 with h1 | h2
        · exact hk h1.symm
        · exact h h2
      · intro h
        exact fun h2 => h (Or.inr h2)

/-- `dictGet` over an entrywise value map. -/
theorem dictGet_mapVals (f : Partner → Partner) (t : List (Int × Partner)) (k : Int) :
    dictGet (t.map (fun kv => (kv.1, f kv.2))) k = (dictGet t k).map f := by
  induction t with
  | nil => simp [dictGet]
  | cons hd tl ih =>
    obtain ⟨k₁, v₁⟩ := hd
    simp only [List.map_cons, dictGet]
    split <;> simp_all

theorem dictGet_dictUpdate_self (t : List (Int × Partner)) (k : Int) (f : Partner → Partner) :
    dictGet (dictUpdate t k f) k = (dictGet t k).map f := by
  induction t with
  | nil => simp [dictGet, dictUpdate]
  | cons hd tl ih =>
    obtain ⟨k₁, v₁⟩ := hd
    by_cases h : k₁ = k
    · subst h
      simp [dictUpdate, dictGet]
    · simp [dictUpdate, dictGet, h, ih]

theorem dictGet_dictUpdate_ne (t : List (Int × Partner)) {k k₁ : Int}
    (f : Partner → Partner) (h : k₁ ≠ k) :
    dictGet (dictUpdate t k f) k₁ = dictGet t k₁ := by
  induction t with
  | nil => simp [dictGet, dictUpdate]
  | cons hd tl ih =>
    obtain ⟨k₂, v₂⟩ := hd
    by_cases h₂ : k₂ = k
    · subst h₂
      simp [dictUpdate, dictGet, Ne.symm h, ih]
    · by_cases h₃ : k₂ = k₁ <;> simp [dictUpdate, dictGet, h, h₂, h₃, ih]

theorem dictUpdate_keys (t : List (Int × Partner)) (k : Int) (f : Partner → Partner) :
    (dictUpdate t k f).map Prod.fst = t.map Prod.fst := by
  induction t with
  | nil => rfl
  | cons hd tl ih =>
    obtain ⟨k₁, v₁⟩ := hd
    by_cases h : k₁ = k <;> simp [dictUpdate, h, ih]

theorem dictSet_keys_mem (t : List (Int × Partner)) (k x : Int) (v : Partner) :
    x ∈ (dictSet t k v).map Prod.fst ↔ x = k ∨ x ∈ t.map Prod.fst := by
  induction t with
  | nil => simp [dictSet]
  | cons hd tl ih =>
    obtain ⟨k₁, v₁⟩ := hd
    simp only [dictSet]
    split <;> rename_i hk
    · subst hk
      simp only [List.map_cons, List.mem_cons]
      tauto
    · simp only [List.map_cons, List.mem_cons, ih]
      tauto

theorem dictSet_keys_nodup {t : List (Int × Partner)} (k : Int) (v : Partner)
    (h : (t.map Prod.fst).Nodup) : ((dictSet t k v).map Prod.fst).Nodup := by
  induction t with
  | nil => simp [dictSet]
  | cons hd tl ih =>
    obtain ⟨k₁, v₁⟩ := hd
    simp only [List.map_cons, List.nodup_cons] at h
    simp only [dictSet]
    split <;> rename_i hk
    · subst hk
      simp only [List.map_cons, List.nodup_cons]
      exact h
    · simp only [List.map_cons, List.nodup_cons]
      constructor
      · intro hmem
        rw [dictSet_keys_mem] at hmem
        rcases hmem with h₁ | h₂
        · exact hk h₁
        · exact h.1 h₂
      · exact ih h.2

theorem dictSet_hkv {t : List (Int × Partner)} {v : Partner}
    (h : ∀ kv ∈ t, Partner.id kv.2 = kv.1) :
    ∀ kv ∈ dictSet t v.id v, Partner.id kv.2 = kv.1 := by
  induction t with
  | nil =>
    intro kv hkv
    simp only [dictSet, List.mem_singleton] at hkv
    simp [hkv]
  | cons hd tl ih =>
    obtain ⟨k₁, v₁⟩ := hd
    simp only [dictSet]
    split <;> rename_i hk
    · intro kv hkv
      rcases List.mem_cons.mp hkv with h₁ | h₂
      · simp [h₁]
      · exact h kv (List.mem_cons_of_mem _ h₂)
    · intro kv hkv
      rcases List.mem_cons.mp hkv with h₁ | h₂
      · exact h kv (by simp [h₁])
      · exact ih (fun kv₂ hkv₂ => h kv₂ (List.mem_cons_of_mem _ hkv₂)) kv h₂

/-! ## Injectivity of the decimal string representation -/

theorem digitChar_inj :
    ∀ d₁ < 10, ∀ d₂ < 10, Char.ofNat (48 + d₁) = Char.ofNat (48 + d₂) → d₁ = d₂ := by
  decide

theorem digitChar_ne_minus : ∀ d < 10, Char.ofNat (48 + d) ≠ Char.ofNat 45 := by
  decide

theorem map_digitChar_inj :
    ∀ (l₁ l₂ : List Nat), (∀ d ∈ l₁, d < 10) → (∀ d ∈ l₂, d < 10) →
      l₁.map (fun d => Char.ofNat (48 + d)) = l₂.map (fun d => Char.ofNat (48 + d)) →
      l₁ = l₂ := by
  intro l₁
  induction l₁ with
  | nil => intro l₂ _ _ h; cases l₂ <;> simp_all
  | cons d₁ tl₁ ih =>
    intro l₂ hb₁ hb₂ h
    cases l₂ with
    | nil => simp at h
    | cons d₂ tl₂ =>
      simp only [List.map_cons, List.cons.injEq] at h
      have hd : d₁ = d₂ :=
        digitChar_inj d₁ (hb₁ d₁ (by simp)) d₂ (hb₂ d₂ (by simp)) h.1
      have ht : tl₁ = tl₂ :=
        ih tl₂ (fun d hd2 => hb₁ d (by simp [hd2])) (fun d hd2 => hb₂ d (by simp [hd2])) h.2
      simp [hd, ht]

theorem natStr_eq_zeroStr {n : Nat} (h : natStr n = "0") : n = 0 := by
  by_contra hn
  have hchars : (natStr n).data = ((Nat.digits 10 n).map (fun d => Char.ofNat (48 + d))).reverse := by
    simp [natStr, hn]
  have h₁ : (natStr n).data = ['0'] := by rw [h]
  rw [hchars] at h₁
  have h₂ : (Nat.digits 10 n).map (fun d => Char.ofNat (48 + d)) = ['0'] := by
    have := congrArg List.reverse h₁
    simpa using this
  have h₃ : Nat.digits 10 n = [0] := by
    have hb : ∀ d ∈ Nat.digits 10 n, d < 10 := fun d hd =>
      Nat.digits_lt_base (by norm_num) hd
    have hc : ('0' : Char) = Char.ofNat (48 + 0) := by decide
    have := map_digitChar_inj (Nat.digits 10 n) [0] hb (by norm_num)
      (by rw [h₂]; simp [hc])
    exact this
  have h₄ : n = Nat.ofDigits 10 (Nat.digits 10 n) := (Nat.ofDigits_digits 10 n).symm
  rw [h₃] at h₄
  simp [Nat.ofDigits] at h₄
  exact hn h₄

theorem natStr_inj {m n : Nat} (h : natStr m = natStr n) : m = n := by
  have hchars : ∀ (a : Nat), a ≠ 0 →
      (natStr a).data = ((Nat.digits 10 a).map (fun d => Char.ofNat (48 + d))).reverse := by
    intro a ha
    simp [natStr, ha]
  by_cases hm : m = 0 <;> by_cases hn : n = 0
  · omega
  · exfalso
    subst hm
    have h₀ : natStr 0 = "0" := rfl
    rw [h₀] at h
    exact hn (natStr_eq_zeroStr h.symm)
  · exfalso
    subst hn
    have h₀ : natStr 0 = "0" := rfl
    rw [h₀] at h
    exact hm (natStr_eq_zeroStr h)
  · have h₁ : (natStr m).data = (natStr n).data := by rw [h]
    rw [hchars m hm, hchars n hn] at h₁
    have h₂ := List.reverse_injective h₁
    have hbm : ∀ d ∈ Nat.digits 10 m, d < 10 := fun d hd =>
      Nat.digits_lt_base (by norm_num) hd
    have hbn : ∀ d ∈ Nat.digits 10 n, d < 10 := fun d hd =>
      Nat.digits_lt_base (by norm_num) hd
    have h₃ := map_digitChar_inj _ _ hbm hbn h₂
    have h₄ := congrArg (Nat.ofDigits 10) h₃
    rwa [Nat.ofDigits_digits, Nat.ofDigits_digits] at h₄

theorem natStr_no_minus (n : Nat) : Char.ofNat 45 ∉ (natStr n).data := by
  by_cases hn : n = 0
  · subst hn
    simp only [natStr, if_pos rfl]
    decide
  · simp only [natStr, if_neg hn]
    intro hmem
    simp only [List.mem_reverse, List.mem_map] at hmem
    obtain ⟨d, hd, hchar⟩ := hmem
    exact digitChar_ne_minus d (Nat.digits_lt_base (by norm_num) hd) hchar

theorem natStr_ne_nil (n : Nat) : (natStr n).data ≠ [] := by
  by_cases hn : n = 0
  · subst hn
    simp only [natStr, if_pos rfl]
    decide
  · simp only [natStr, if_neg hn]
    simp only [ne_eq, List.reverse_eq_nil_iff, List.map_eq_nil_iff]
    exact Nat.digits_ne_nil_iff_ne_zero.mpr hn

theorem intStr_inj {i j : Int} (h : intStr i = intStr j) : i = j := by
  have hdata : (intStr i).data = (intStr j).data := by rw [h]
  have hminus : ∀ (a : Nat), ("-" ++ natStr a).data = Char.ofNat 45 :: (natStr a).data := by
    intro a
    have : ("-" : String).data = [Char.ofNat 45] := by decide
    simp [String.data_append, this]
  by_cases hi : i < 0 <;> by_cases hj : j < 0
  · simp only [intStr, if_pos hi, if_pos hj] at hdata
    rw [hminus, hminus] at hdata
    simp only [List.cons.injEq, true_and] at hdata
    have h₃ := natStr_inj (String.ext hdata)
    omega
  · exfalso
    simp only [intStr, if_pos hi, if_neg hj] at hdata
    rw [hminus] at hdata
    have : Char.ofNat 45 ∈ (natStr j.natAbs).data := by
      rw [← hdata]
      simp
    exact natStr_no_minus _ this
  · exfalso
    simp only [intStr, if_neg hi, if_pos hj] at hdata
    rw [hminus] at hdata
    have : Char.ofNat 45 ∈ (natStr i.natAbs).data := by
      rw [hdata]
      simp
    exact natStr_no_minus _ this
  · simp only [intStr, if_neg hi, if_neg hj] at hdata
    have h2 := natStr_inj (String.ext hdata)
    omega

/-! ## Unfolding equations for the parent-link walk

`parentWalk` is defined by well-founded recursion, so it does not reduce
definitionally; these four equations are its step semantics. -/

theorem parentWalk_missing {t : List (Int × Partner)} {cur : Int} {path : Finset Int}
    (hget : dictGet t cur = none) :
    CycleDetector.parentWalk t cur path = (false, path) := by
  rw [CycleDetector.parentWalk.eq_def]
  split <;> simp_all

theorem parentWalk_found {t : List (Int × Partner)} {cur : Int} {path : Finset Int} {p : Partner}
    (hget : dictGet t cur = some p) (hmem : cur ∈ path) :
    CycleDetector.parentWalk t cur path = (true, path) := by
  rw [CycleDetector.parentWalk.eq_def]
  split <;> rename_i heq
  · simp_all
  · rw [hget] at heq
    cases heq
    simp [hmem]

theorem parentWalk_atRoot {t : List (Int × Partner)} {cur : Int} {path : Finset Int} {p : Partner}
    (hget : dictGet t cur = some p) (hmem : cur ∉ path) (hpar : p.parent_id = none) :
    CycleDetector.parentWalk t cur path = (false, insert cur path) := by
  rw [CycleDetector.parentWalk.eq_def]
  split <;> rename_i heq
  · simp_all
  · rw [hget] at heq
    cases heq
    rw [if_neg hmem]
    split <;> simp_all

theorem parentWalk_badKey {t : List (Int × Partner)} {cur : Int} {path : Finset Int}
    {p : Partner} {pv : PyVal}
    (hget : dictGet t cur = some p) (hmem : cur ∉ path) (hpar : p.parent_id = some pv)
    (hkey : pyKey pv = none) :
    CycleDetector.parentWalk t cur path = (false, insert cur path) := by
  rw [CycleDetector.parentWalk.eq_def]
  split <;> rename_i heq
  · simp_all
  · rw [hget] at heq
    cases heq
    rw [if_neg hmem]
    split <;> rename_i hpar₂
    · rfl
    · rw [hpar] at hpar₂
      cases hpar₂
      rw [hkey]

theorem parentWalk_step {t : List (Int × Partner)} {cur : Int} {path : Finset Int}
    {p : Partner} {pv : PyVal} {q : Int}
    (hget : dictGet t cur = some p) (hmem : cur ∉ path) (hpar : p.parent_id = some pv)
    (hkey : pyKey pv = some q) :
    CycleDetector.parentWalk t cur path = CycleDetector.parentWalk t q (insert cur path) := by
  rw [CycleDetector.parentWalk.eq_def]
  split <;> rename_i heq
  · simp_all
  · rw [hget] at heq
    cases heq
    rw [if_neg hmem]
    split <;> rename_i hpar₂
    · rw [hpar] at hpar₂
      cases hpar₂
    · rw [hpar] at hpar₂
      cases hpar₂
      rw [hkey]

/-! ## C3 — daily profit derivation -/

/-- **C3**: on a structurally valid reference date, `calculate_daily_profits`
succeeds and sets every node's `daily_profit` to `monthly_revenue` divided
by the number of calendar days of the reference month (`29` in February of
a leap year, `28` otherwise; `30`/`31` elsewhere); no other node field
influences the result; and the division primitive used is the guarded
`safe_divide`, which returns `0` on a zero denominator. -/
theorem daily_profit_formula (t : PartnerTree) (d : PyDate)
    (hm : 1 ≤ d.month ∧ d.month ≤ 12) :
    (∃ days : Nat,
      CalendarPy.monthrangeDays d.year d.month = .ok days ∧
      days = (if d.month = 2 then (if CalendarPy.isleap d.year then 29 else 28)
              else if d.month = 4 ∨ d.month = 6 ∨ d.month = 9 ∨ d.month = 11 then 30 else 31) ∧
      DailyProfitCalculator.calculate_daily_profits t d =
        .ok { t with partners := t.partners.map (fun kv =>
          (kv.1, { kv.2 with daily_profit := kv.2.monthly_revenue / (days : ℚ) })) } ∧
      DailyProfitCalculator.calculate_daily_profits t d =
        .ok { t with
              partners := t.partners.map (DailyProfitCalculator.setDaily (days : ℚ)) }) ∧
    (∀ x : ℚ, MathUtils.safe_divide x 0 = 0) := by
  constructor
  · refine ⟨(if d.month = 2 then (if CalendarPy.isleap d.year then 29 else 28)
      else if d.month = 4 ∨ d.month = 6 ∨ d.month = 9 ∨ d.month = 11 then 30 else 31),
      ?_, rfl, ?_, ?_⟩
    · simp [CalendarPy.monthrangeDays, hm]
    · have hdays : ∀ days : Nat, days ≠ 0 →
          DailyProfitCalculator.setDaily ((days : Nat) : ℚ) =
          (fun kv : Int × Partner =>
            (kv.1, { kv.2 with daily_profit := kv.2.monthly_revenue / (days : ℚ) })) := by
        intro days hne
        funext kv
        have : ((days : ℚ)) ≠ 0 := by exact_mod_cast hne
        simp [DailyProfitCalculator.setDaily, MathUtils.safe_divide, this]
      simp only [DailyProfitCalculator.calculate_daily_profits, CalendarPy.monthrangeDays,
        if_pos hm]
      rw [hdays]
      split <;> split <;> simp
    · simp [DailyProfitCalculator.calculate_daily_profits, CalendarPy.monthrangeDays, hm]
  · intro x
    simp [MathUtils.safe_divide]

/-! ## C10 — negative revenue flows through -/

/-- A two-node input whose child has negative monthly revenue. -/
def negRevenueData : PyVal := .pylist
  [ .pydict [("id", .pyint 1), ("monthly_revenue", .pyint 0)]
  , .pydict [("id", .pyint 2), ("parent_id", .pyint 1), ("monthly_revenue", .pyint (-31))] ]

/-- The root object the builder creates for `negRevenueData`. -/
def negPartnerRoot : Partner :=
  { id := 1, parent_id := none, name := .pystr "", monthly_revenue := 0,
    children := [2], daily_profit := 0, total_commission := 0 }

/-- The child object the builder creates for `negRevenueData`. -/
def negPartnerChild : Partner :=
  { id := 2, parent_id := some (.pyint 1), name := .pystr "", monthly_revenue := -31,
    children := [], daily_profit := 0, total_commission := 0 }

/-- The forest the builder creates for `negRevenueData`. -/
def negTree : PartnerTree := ⟨[(1, negPartnerRoot), (2, negPartnerChild)], [1]⟩

theorem negTree_validates : TreeValidator.validate negTree = .ok () := by
  have w₁ : CycleDetector.parentWalk negTree.partners 1 ∅ = (false, insert 1 ∅) :=
    parentWalk_atRoot (show dictGet negTree.partners 1 = some negPartnerRoot from rfl)
      (by simp) rfl
  have w₂ : CycleDetector.parentWalk negTree.partners 2 ∅ = (false, insert 1 (insert 2 ∅)) := by
    rw [parentWalk_step (show dictGet negTree.partners 2 = some negPartnerChild from rfl)
      (by simp) rfl rfl]
    exact parentWalk_atRoot (show dictGet negTree.partners 1 = some negPartnerRoot from rfl)
      (by simp) rfl
  have h₁ : (negPartnerRoot.id : Int) = 1 := rfl
  have h₂ : (negPartnerChild.id : Int) = 2 := rfl
  have hv : CycleDetector.hasCyclesAux negTree.partners [negPartnerRoot, negPartnerChild] ∅
      = none := by
    simp [CycleDetector.hasCyclesAux, h₁, h₂, w₁, w₂]
  have hall : negTree.get_all_partners = [negPartnerRoot, negPartnerChild] := rfl
  have hroots : negTree.get_roots = [1] := rfl
  simp [TreeValidator.validate, CycleDetector.has_cycles, hall, hv, hroots]

/-- `negTree` after the Profit Deriver has run for July 2024 (31 days). -/
def negTreeD : PartnerTree :=
  ⟨[(1, { negPartnerRoot with daily_profit := 0 }),
    (2, { negPartnerChild with daily_profit := -1 })], [1]⟩

theorem negDerive_eval :
    DailyProfitCalculator.calculate_daily_profits negTree ⟨2024, 7⟩ = .ok negTreeD := by
  simp only [DailyProfitCalculator.calculate_daily_profits, CalendarPy.monthrangeDays]
  norm_num [negTree, negTreeD, negPartnerRoot, negPartnerChild,
    DailyProfitCalculator.setDaily, MathUtils.safe_divide]

theorem negCommissions_eval :
    (CommissionCalculator.calculate_commissions negTreeD).2 =
      [("1", -(1 : ℚ)/20), ("2", 0)] := by
  simp only [CommissionCalculator.calculate_commissions, CommissionCalculator.reset_commissions,
    CommissionCalculator.format_results, CommissionCalculator.calcSubtree, PartnerTree.get_roots,
    negTreeD, negPartnerRoot, negPartnerChild]
  norm_num [dictGet, dictUpdate, Constants.COMMISSION_RATE, MathUtils.round_currency,
    MathUtils.pyRound, intStr, natStr]
  have hf : Int.fract ((-5 : ℚ)) = 0 := by
    rw [show ((-5 : ℚ)) = ((-5 : Int) : ℚ) by norm_num]
    exact Int.fract_intCast _
  rw [hf]
  norm_num

theorem negPipeline_eval :
    (runPipeline negRevenueData ⟨2024, 7⟩).toOption.map Prod.snd =
      some [("1", -(1 : ℚ)/20), ("2", 0)] := by
  have hb : TreeBuilder.build_from_data negRevenueData = .ok negTree := rfl
  simp only [runPipeline, hb, negTree_validates, negDerive_eval]
  rw [show (Except.ok (CommissionCalculator.calculate_commissions negTreeD) :
      Except PyErr _).toOption = some (CommissionCalculator.calculate_commissions negTreeD)
    from rfl]
  rw [show Option.map Prod.snd (some (CommissionCalculator.calculate_commissions negTreeD)) =
    some (CommissionCalculator.calculate_commissions negTreeD).2 from rfl]
  rw [negCommissions_eval]

/-- **C10**: validation only checks that `monthly_revenue` is numeric — any
negative rational is accepted — and on `negRevenueData` (child revenue
`-31` in a 31-day month, hence daily profit `-1`) the whole pipeline
completes and reports the negative commission `-0.05` for the root. -/
theorem negative_revenue_flows (q : ℚ) (hq : q < 0) :
    ValidationUtils.validate_partner_data
      (.pylist [.pydict [("id", .pyint 7), ("monthly_revenue", .pyfloat q)]]) = .ok () ∧
    (runPipeline negRevenueData ⟨2024, 7⟩).toOption.map Prod.snd =
      some [("1", -(1 : ℚ)/20), ("2", 0)] ∧
    -(1 : ℚ)/20 < 0 := by
  refine ⟨rfl, negPipeline_eval, by norm_num⟩

/-! ## C7 — engine state resets on failure; operations demand a loaded tree -/

/-- **C7**: whenever loading fails — in the engine's own checks, the record
validation, the build phase or the structural validation — the engine state
is `none` ("nothing loaded") as the error propagates, whatever was loaded
before; and each operation that requires a loaded forest (daily-profit
derivation, commission calculation, statistics, level distribution) fails
with `NO_PARTNERS_LOADED` (and leaves no result) when nothing is loaded. -/
theorem engine_state_reset (s₀ : Option PartnerTree) (data : PyVal) (e : PyErr)
    (h : (CommissionEngine.load_partners s₀ data).2 = .error e) :
    (CommissionEngine.load_partners s₀ data).1 = none ∧
    (∀ d, CommissionEngine.calculate_daily_profits none d = (none, .error .notLoaded)) ∧
    CommissionEngine.calculate_commissions none = (none, .error .notLoaded) ∧
    CommissionEngine.get_stats none = .error .notLoaded ∧
    CommissionEngine.get_level_distribution none = .error .notLoaded := by
  refine ⟨?_, fun d => rfl, rfl, rfl, rfl⟩
  unfold CommissionEngine.load_partners at h ⊢
  cases data <;> try rfl
  rename_i l
  dsimp only at h ⊢
  by_cases hl : l.isEmpty = true
  · rw [if_pos hl]
  · rw [if_neg hl] at h ⊢
    rcases h₁ : ValidationUtils.validate_partner_data (.pylist l) with e₁ | u
    · rfl
    · obtain ⟨⟩ := u
      rcases h₂ : TreeBuilder.build_from_data (.pylist l) with e₂ | tr
      · rfl
      · rcases h₃ : TreeValidator.validate tr with e₃ | u₃
        · dsimp only
          rw [h₃]
        · obtain ⟨⟩ := u₃
          simp [h₁, h₂, h₃] at h

/-! ## C6 — exactly which inputs the builder's validation rejects -/

/-- The spec's description of a well-formed record: a dictionary with an
integer `id` and a numeric `monthly_revenue` (Python `isinstance`
semantics: `bool` counts as `int`). -/
def wellFormedRecord (v : PyVal) : Bool :=
  match v with
  | .pydict item =>
      (getField item "id").isSome && (getField item "monthly_revenue").isSome &&
      isInstInt ((getField item "id").getD .pynone) &&
      isInstNumeric ((getField item "monthly_revenue").getD .pynone)
  | _ => false

theorem validateRecord_ok_iff (idx : Nat) (v : PyVal) :
    ValidationUtils.validateRecord idx v = .ok () ↔ wellFormedRecord v = true := by
  cases v <;> simp only [ValidationUtils.validateRecord, wellFormedRecord] <;>
    try simp
  rename_i item
  rcases hid : getField item "id" with _ | idv <;>
    rcases hmr : getField item "monthly_revenue" with _ | mrv <;>
      simp only [List.filter, hid, hmr] <;> try simp
  rcases Bool.eq_false_or_eq_true (isInstInt idv) with hii | hii <;>
    rcases Bool.eq_false_or_eq_true (isInstNumeric mrv) with hin | hin <;>
      simp [hii, hin]

theorem validateRecords_ok_iff (l : List PyVal) :
    ∀ idx, ValidationUtils.validateRecords idx l = .ok () ↔
      ∀ v ∈ l, wellFormedRecord v = true := by
  induction l with
  | nil => intro idx; simp [ValidationUtils.validateRecords]
  | cons v rest ih =>
    intro idx
    simp only [ValidationUtils.validateRecords, List.mem_cons]
    rcases hv : ValidationUtils.validateRecord idx v with e | u
    · constructor
      · intro h; cases h
      · intro h
        exfalso
        have := (validateRecord_ok_iff idx v).mpr (h v (Or.inl rfl))
        rw [hv] at this
        cases this
    · obtain ⟨⟩ := u
      rw [ih (idx + 1)]
      constructor
      · intro h w hw
        rcases hw with rfl | hw
        · exact (validateRecord_ok_iff idx w).mp hv
        · exact h w hw
      · intro h w hw
        exact h w (Or.inr hw)

/-- **C6 (amended)**: `validate_partner_data` — the validation the Forest
Builder runs before constructing any node (an error short-circuits
`build_from_data` unchanged) — succeeds iff the input is a list all of
whose elements are dictionaries carrying an integer `id` and a numeric
`monthly_revenue`; in particular the *empty* list passes the builder's
validation (the emptiness rejection lives in
`CommissionEngine.load_partners`, as does the `TypeError` for non-list
input there). -/
theorem validation_exactness (data : PyVal) :
    (ValidationUtils.validate_partner_data data = .ok () ↔
      ∃ l, data = .pylist l ∧ ∀ v ∈ l, wellFormedRecord v = true) ∧
    (∀ e, ValidationUtils.validate_partner_data data = .error e →
      TreeBuilder.build_from_data data = .error e) ∧
    (∀ s₀, CommissionEngine.load_partners s₀ (.pylist []) = (none, .error .emptyData)) := by
  refine ⟨?_, ?_, fun s₀ => rfl⟩
  · cases data <;> simp only [ValidationUtils.validate_partner_data] <;> try simp
    rename_i l
    rw [validateRecords_ok_iff l 0]
  · intro e h
    simp [TreeBuilder.build_from_data, h]

/-- **C6 (counterexample)**: the claim says the Forest Builder fails with a
validation error on the empty sequence; in fact `build_from_data` accepts
`[]` and returns the empty forest. -/
theorem builder_accepts_empty_list :
    TreeBuilder.build_from_data (.pylist []) = .ok ⟨[], []⟩ := rfl

/-! ## Frame lemmas: what each pass can touch

`maskC kv` (resp. `maskD kv`) zeroes the entry's `total_commission` (resp.
`daily_profit`) and keeps everything else; `l₁.map maskC = l₂.map maskC`
says the two dicts agree on keys, order, and every field except
`total_commission`. -/

/-- Entry with its `total_commission` blanked. -/
def maskC (kv : Int × Partner) : Int × Partner := (kv.1, { kv.2 with total_commission := 0 })

/-- Entry with its `daily_profit` blanked. -/
def maskD (kv : Int × Partner) : Int × Partner := (kv.1, { kv.2 with daily_profit := 0 })

theorem dictUpdate_maskC (ps : List (Int × Partner)) (k : Int) (c : ℚ) :
    (dictUpdate ps k (fun q => { q with total_commission := c })).map maskC = ps.map maskC := by
  induction ps with
  | nil => rfl
  | cons hd tl ih =>
    obtain ⟨k₁, v₁⟩ := hd
    by_cases h : k₁ = k <;> simp [dictUpdate, h, ih, maskC]

/-- The post-order traversal only writes `total_commission` fields. -/
theorem calcSubtree_maskC (fuel : Nat) :
    ∀ (ps : List (Int × Partner)) (pid : Int),
      ((CommissionCalculator.calcSubtree ps fuel pid).1).map maskC = ps.map maskC := by
  induction fuel with
  | zero => intro ps pid; rfl
  | succ n ih =>
    intro ps pid
    simp only [CommissionCalculator.calcSubtree]
    cases hget : dictGet ps pid with
    | none => rfl
    | some p =>
      have hfold : ∀ (l : List Int) (acc : List (Int × Partner) × ℚ),
          acc.1.map maskC = ps.map maskC →
          ((l.foldl (fun acc cid =>
            let r := CommissionCalculator.calcSubtree acc.1 n cid
            (r.1, acc.2 + r.2)) acc).1).map maskC = ps.map maskC := by
        intro l
        induction l with
        | nil => intro acc h; exact h
        | cons c cs ihl =>
          intro acc h
          simp only [List.foldl]
          apply ihl
          rw [ih acc.1 c]
          exact h
      exact dictUpdate_maskC _ _ _ |>.trans (hfold p.children (ps, 0) rfl)

theorem reset_maskC (ps : List (Int × Partner)) :
    (CommissionCalculator.reset_commissions ps).map maskC = ps.map maskC := by
  simp only [CommissionCalculator.reset_commissions, List.map_map]
  rfl

theorem rootsFold_maskC (roots : List Int) (fuel : Nat) :
    ∀ ps : List (Int × Partner),
      (roots.foldl (fun ps r => (CommissionCalculator.calcSubtree ps fuel r).1) ps).map maskC =
        ps.map maskC := by
  induction roots with
  | nil => intro ps; rfl
  | cons r rest ih =>
    intro ps
    simp only [List.foldl]
    exact (ih _).trans (calcSubtree_maskC fuel ps r)

/-- The Commission Aggregator's frame: it only writes `total_commission`,
leaving the id-keyed dict (keys, order, all other fields) and `roots`
untouched. -/
theorem calculate_commissions_frame (t : PartnerTree) :
    ((CommissionCalculator.calculate_commissions t).1).partners.map maskC =
      t.partners.map maskC ∧
    ((CommissionCalculator.calculate_commissions t).1).roots = t.roots := by
  constructor
  · simp only [CommissionCalculator.calculate_commissions]
    exact (rootsFold_maskC _ _ _).trans (reset_maskC _)
  · rfl

/-- The Profit Deriver's frame: it only writes `daily_profit`. -/
theorem calculate_daily_profits_frame (t : PartnerTree) (d : PyDate) (t₁ : PartnerTree)
    (h : DailyProfitCalculator.calculate_daily_profits t d = .ok t₁) :
    t₁.partners.map maskD = t.partners.map maskD ∧ t₁.roots = t.roots := by
  unfold DailyProfitCalculator.calculate_daily_profits at h
  cases hdays : CalendarPy.monthrangeDays d.year d.month with
  | error e => rw [hdays] at h; cases h
  | ok days =>
    rw [hdays] at h
    cases h
    constructor
    · simp only [List.map_map]
      rfl
    · rfl

/-- **C9**: the Profit Deriver changes nothing but `daily_profit`, and the
Commission Aggregator changes nothing but `total_commission`: for every
node, `id`, `parent_id`, `name`, `monthly_revenue` and the `children` list
survive both passes, and the forest's id-to-node dict (keys and their
order) and its `roots` sequence are unchanged. -/
theorem passes_frame_effects (t : PartnerTree) (d : PyDate) (t₁ : PartnerTree)
    (h : DailyProfitCalculator.calculate_daily_profits t d = .ok t₁) :
    (t₁.partners.map maskD = t.partners.map maskD ∧ t₁.roots = t.roots) ∧
    (((CommissionCalculator.calculate_commissions t).1).partners.map maskC =
        t.partners.map maskC ∧
      ((CommissionCalculator.calculate_commissions t).1).roots = t.roots) :=
  ⟨calculate_daily_profits_frame t d t₁ h, calculate_commissions_frame t⟩

/-! ## C8 — idempotence of Deriver + Aggregator -/

theorem calculate_commissions_congr (ta tb : PartnerTree)
    (hreset : CommissionCalculator.reset_commissions ta.partners =
      CommissionCalculator.reset_commissions tb.partners)
    (hroots : ta.roots = tb.roots)
    (hlen : ta.partners.length = tb.partners.length) :
    CommissionCalculator.calculate_commissions ta =
      CommissionCalculator.calculate_commissions tb := by
  obtain ⟨pa, ra⟩ := ta
  obtain ⟨pb, rb⟩ := tb
  simp only at hreset hroots hlen
  simp only [CommissionCalculator.calculate_commissions, PartnerTree.get_roots, hreset, hroots,
    hlen]

/-- Re-deriving daily profits and then resetting commissions gives the same
dict whether it starts from the aggregator's output (which differs from the
first derivation only in `total_commission`) or from the first derivation
itself. -/
theorem reset_derive_congr (days : ℚ) (la lb : List (Int × Partner))
    (h : la.map maskC = (lb.map (DailyProfitCalculator.setDaily days)).map maskC) :
    CommissionCalculator.reset_commissions (la.map (DailyProfitCalculator.setDaily days)) =
    CommissionCalculator.reset_commissions (lb.map (DailyProfitCalculator.setDaily days)) := by
  have hg : ∀ l : List (Int × Partner),
      CommissionCalculator.reset_commissions (l.map (DailyProfitCalculator.setDaily days)) =
      CommissionCalculator.reset_commissions
        ((l.map maskC).map (DailyProfitCalculator.setDaily days)) := by
    intro l
    simp only [CommissionCalculator.reset_commissions, List.map_map]
    rfl
  rw [hg la, h, hg lb]
  simp only [CommissionCalculator.reset_commissions, List.map_map]
  rfl

/-- **C8**: re-running the Profit Deriver and the Commission Aggregator on
the unchanged forest with the same reference date succeeds and reproduces
the first run bit for bit: the re-derivation yields a forest whose
aggregation returns the same mutated forest and the same output mapping
(so, after the aggregator's reset-to-zero step, every node's commission
equals the first run's). -/
theorem deriver_aggregator_idempotent (t : PartnerTree) (d : PyDate)
    (t₁ t₂ : PartnerTree) (out₁ : List (String × ℚ))
    (h₁ : DailyProfitCalculator.calculate_daily_profits t d = .ok t₁)
    (hc : CommissionCalculator.calculate_commissions t₁ = (t₂, out₁)) :
    ∃ t₃, DailyProfitCalculator.calculate_daily_profits t₂ d = .ok t₃ ∧
      CommissionCalculator.calculate_commissions t₃ = (t₂, out₁) := by
  unfold DailyProfitCalculator.calculate_daily_profits at h₁ ⊢
  cases hdays : CalendarPy.monthrangeDays d.year d.month with
  | error e => rw [hdays] at h₁; cases h₁
  | ok days =>
    rw [hdays] at h₁
    cases h₁
    refine ⟨_, rfl, ?_⟩
    have hmask : t₂.partners.map maskC =
        (t.partners.map (DailyProfitCalculator.setDaily (days : ℚ))).map maskC := by
      have := (calculate_commissions_frame
        { t with partners := t.partners.map (DailyProfitCalculator.setDaily (days : ℚ)) }).1
      rw [hc] at this
      exact this
    have hroots : t₂.roots = t.roots := by
      have := (calculate_commissions_frame
        { t with partners := t.partners.map (DailyProfitCalculator.setDaily (days : ℚ)) }).2
      rw [hc] at this
      exact this
    have hlen : t₂.partners.length = t.partners.length := by
      have := congrArg List.length hmask
      simpa using this
    have hcongr := calculate_commissions_congr
      { t₂ with partners := t₂.partners.map (DailyProfitCalculator.setDaily (days : ℚ)) }
      { t with partners := t.partners.map (DailyProfitCalculator.setDaily (days : ℚ)) }
      (reset_derive_congr (days : ℚ) t₂.partners t.partners hmask) hroots (by simpa using hlen)
    rw [hcongr, hc]

/-! ## C5 — the edge-wiring pass -/

/-- The spec's notion of an orphan: a node declaring a `parent_id` that
resolves to no node of the forest. -/
def isOrphan (ps : List (Int × Partner)) (p : Partner) : Bool :=
  match p.parent_id with
  | none => false
  | some pv =>
    match pyKey pv with
    | none => true
    | some k => (dictGet ps k).isNone

/-- The dict key a node's `parent_id` denotes, when it denotes one. -/
def parentKey (p : Partner) : Option Int := p.parent_id.bind pyKey

theorem dictGet_none_congr {a b : List (Int × Partner)}
    (h : a.map Prod.fst = b.map Prod.fst) (k : Int) :
    dictGet a k = none ↔ dictGet b k = none := by
  rw [dictGet_none_iff, dictGet_none_iff, h]

theorem wireAll_spec (t : PartnerTree) :
    ∀ (l : List Partner) (acc : List (Int × Partner)),
      acc.map Prod.fst = t.partners.map Prod.fst →
      ((∀ o, l.find? (isOrphan t.partners) = some o →
        TreeBuilder.wireAll acc l =
          .error (.parentNotFound (o.parent_id.getD .pynone) o.id)) ∧
      (l.find? (isOrphan t.partners) = none →
        ∃ ps₁, TreeBuilder.wireAll acc l = .ok ps₁ ∧
          ps₁.map Prod.fst = acc.map Prod.fst ∧
          ∀ k p, dictGet ps₁ k = some p → ∃ p₀, dictGet acc k = some p₀ ∧
            p = { p₀ with children := p₀.children ++
              ((l.filter (fun c => parentKey c = some k)).map Partner.id) })) := by
  intro l
  induction l with
  | nil =>
    intro acc hkeys
    constructor
    · intro o ho
      simp [List.find?] at ho
    · intro _
      refine ⟨acc, rfl, rfl, ?_⟩
      intro k p hp
      refine ⟨p, hp, ?_⟩
      simp [List.filter]
  | cons p rest ih =>
    intro acc hkeys
    rcases horph : isOrphan t.partners p with _ | _
    · -- head is not an orphan: wirePartner succeeds and we recurse
      have hstep : ∃ acc₁, TreeBuilder.wirePartner acc p = .ok acc₁ ∧
          acc₁.map Prod.fst = acc.map Prod.fst ∧
          ∀ k q, dictGet acc₁ k = some q → ∃ q₀, dictGet acc k = some q₀ ∧
            q = { q₀ with children := q₀.children ++
              (if parentKey p = some k then [p.id] else []) } := by
        unfold TreeBuilder.wirePartner
        unfold isOrphan at horph
        cases hpar : p.parent_id with
        | none =>
          refine ⟨acc, rfl, rfl, ?_⟩
          intro k q hq
          refine ⟨q, hq, ?_⟩
          simp [parentKey, hpar]
        | some pv =>
          rw [hpar] at horph
          dsimp only at horph ⊢
          cases hkey : pyKey pv with
          | none =>
            rw [hkey] at horph
            dsimp only at horph
            cases horph
          | some k₀ =>
            rw [hkey] at horph
            dsimp only at horph ⊢
            cases hget : dictGet acc k₀ with
            | none =>
              exfalso
              rw [dictGet_none_congr hkeys k₀] at hget
              rw [hget] at horph
              cases horph
            | some q₀ =>
              have hpk : parentKey p = some k₀ := by simp [parentKey, hpar, hkey]
              refine ⟨_, rfl, dictUpdate_keys acc k₀ _, ?_⟩
              intro k q hq
              by_cases hk : k = k₀
              · subst hk
                rw [dictGet_dictUpdate_self] at hq
                rw [hget] at hq
                cases hq
                refine ⟨q₀, hget, ?_⟩
                simp [hpk]
              · rw [dictGet_dictUpdate_ne _ _ (fun h => hk h)] at hq
                refine ⟨q, hq, ?_⟩
                rw [hpk]
                rw [if_neg (by
                  intro hcon
                  injection hcon with hcon₂
                  exact hk hcon₂.symm)]
                simp
      obtain ⟨acc₁, hw, hkeys₁, hch₁⟩ := hstep
      have ihres := ih acc₁ (hkeys₁.trans hkeys)
      constructor
      · intro o ho
        simp only [List.find?, horph] at ho
        simp only [TreeBuilder.wireAll, hw]
        exact ihres.1 o ho
      · intro hnone
        simp only [List.find?, horph] at hnone
        obtain ⟨ps₁, hok, hkeys₂, hch₂⟩ := ihres.2 hnone
        refine ⟨ps₁, ?_, hkeys₂.trans hkeys₁, ?_⟩
        · simp only [TreeBuilder.wireAll, hw]
          exact hok
        · intro k q hq
          obtain ⟨q₁, hq₁, hqe⟩ := hch₂ k q hq
          obtain ⟨q₀, hq₀, hqe₀⟩ := hch₁ k q₁ hq₁
          refine ⟨q₀, hq₀, ?_⟩
          rw [hqe, hqe₀]
          simp only [List.filter]
          by_cases hpk : parentKey p = some k
          · simp [hpk, List.append_assoc]
          · simp [hpk]
    · -- head is an orphan: wirePartner errors with its ids
      have hstep : TreeBuilder.wireAll acc (p :: rest) =
          .error (.parentNotFound (p.parent_id.getD .pynone) p.id) := by
        unfold TreeBuilder.wireAll TreeBuilder.wirePartner
        unfold isOrphan at horph
        cases hpar : p.parent_id with
        | none => rw [hpar] at horph; dsimp only at horph; cases horph
        | some pv =>
          rw [hpar] at horph
          dsimp only at horph ⊢
          cases hkey : pyKey pv with
          | none => simp
          | some k₀ =>
            rw [hkey] at horph
            dsimp only at horph
            have hnone₀ : dictGet t.partners k₀ = none := by
              cases hgt : dictGet t.partners k₀ with
              | none => rfl
              | some x => rw [hgt] at horph; simp at horph
            have : dictGet acc k₀ = none := (dictGet_none_congr hkeys k₀).mpr hnone₀
            simp [hkey, this]
      constructor
      · intro o ho
        simp only [List.find?, horph] at ho
        cases ho
        exact hstep
      · intro hnone
        simp only [List.find?, horph] at hnone
        cases hnone

/-- **C5**: during the edge-wiring pass over a freshly created forest
(`children` lists still empty): if some node carries a `parent_id` that
resolves to no node, the build fails with `PARENT_NOT_FOUND` carrying the
unresolved parent value and the (first, in input order) orphan's own id;
otherwise the pass succeeds and each node's final `children` list is
exactly the ids of the nodes declaring it as parent, in input (dict)
order, all other node fields and the dict keys and `roots` unchanged. -/
theorem wiring_exactness (t : PartnerTree)
    (hc0 : ∀ kv ∈ t.partners, kv.2.children = []) :
    (∀ o, t.get_all_partners.find? (isOrphan t.partners) = some o →
      ∃ pv, o.parent_id = some pv ∧
        TreeBuilder.build_relationships t = .error (.parentNotFound pv o.id)) ∧
    (t.get_all_partners.find? (isOrphan t.partners) = none →
      ∃ t₁, TreeBuilder.build_relationships t = .ok t₁ ∧ t₁.roots = t.roots ∧
        t₁.partners.map Prod.fst = t.partners.map Prod.fst ∧
        ∀ k p, dictGet t₁.partners k = some p →
          ∃ p₀, dictGet t.partners k = some p₀ ∧
            p = { p₀ with children :=
              (t.get_all_partners.filter (fun c => parentKey c = some k)).map Partner.id }) := by
  have hspec := wireAll_spec t t.get_all_partners t.partners rfl
  constructor
  · intro o ho
    have hiso : isOrphan t.partners o = true := List.find?_some ho
    cases hpar : o.parent_id with
    | none =>
      exfalso
      unfold isOrphan at hiso
      rw [hpar] at hiso
      dsimp only at hiso
      cases hiso
    | some pv =>
      refine ⟨pv, rfl, ?_⟩
      unfold TreeBuilder.build_relationships
      rw [hspec.1 o ho, hpar]
      rfl
  · intro hnone
    obtain ⟨ps₁, hok, hkeys, hch⟩ := hspec.2 hnone
    refine ⟨{ t with partners := ps₁ }, ?_, rfl, hkeys, ?_⟩
    · unfold TreeBuilder.build_relationships
      rw [hok]
    · intro k p hp
      obtain ⟨p₀, hp₀, hpe⟩ := hch k p hp
      refine ⟨p₀, hp₀, ?_⟩
      rw [hpe, hc0 (k, p₀) (dictGet_mem hp₀)]
      simp

/-! ## C2 — the cycle detector against the parent-link reachability relation -/

/-- A cycle is reachable from `x` along parent links. -/
def reachesCycle (t : List (Int × Partner)) (x : Int) : Prop :=
  ∃ i, Relation.ReflTransGen (pstep t) x i ∧ Relation.TransGen (pstep t) i i

theorem pstep_unique {t : List (Int × Partner)} {cur : Int} {p : Partner} {pv : PyVal} {q x : Int}
    (hget : dictGet t cur = some p) (hpar : p.parent_id = some pv) (hkey : pyKey pv = some q)
    (h : pstep t cur x) : x = q := by
  obtain ⟨p₂, hget₂, pv₂, hpar₂, hkey₂⟩ := h
  rw [hget] at hget₂
  cases hget₂
  rw [hpar] at hpar₂
  cases hpar₂
  rw [hkey] at hkey₂
  cases hkey₂
  rfl

theorem not_reachesCycle_of_stuck {t : List (Int × Partner)} {cur : Int}
    (hnostep : ∀ x, ¬ pstep t cur x) : ¬ reachesCycle t cur := by
  rintro ⟨i, hreach, hcyc⟩
  rcases Relation.ReflTransGen.cases_head hreach with rfl | ⟨c, hc, _⟩
  · obtain ⟨c, hc, _⟩ := (Relation.TransGen.head'_iff).mp hcyc
    exact hnostep c hc
  · exact hnostep c hc

theorem no_pstep_missing {t : List (Int × Partner)} {cur : Int}
    (hget : dictGet t cur = none) : ∀ x, ¬ pstep t cur x := by
  rintro x ⟨p, hget₂, _⟩
  rw [hget] at hget₂
  cases hget₂

theorem no_pstep_root {t : List (Int × Partner)} {cur : Int} {p : Partner}
    (hget : dictGet t cur = some p) (hpar : p.parent_id = none) : ∀ x, ¬ pstep t cur x := by
  rintro x ⟨p₂, hget₂, pv₂, hpar₂, _⟩
  rw [hget] at hget₂
  cases hget₂
  rw [hpar] at hpar₂
  cases hpar₂

theorem no_pstep_badKey {t : List (Int × Partner)} {cur : Int} {p : Partner} {pv : PyVal}
    (hget : dictGet t cur = some p) (hpar : p.parent_id = some pv) (hkey : pyKey pv = none) :
    ∀ x, ¬ pstep t cur x := by
  rintro x ⟨p₂, hget₂, pv₂, hpar₂, hkey₂⟩
  rw [hget] at hget₂
  cases hget₂
  rw [hpar] at hpar₂
  cases hpar₂
  rw [hkey] at hkey₂
  cases hkey₂

/-- If the walk answers `True`, a cycle genuinely exists, reachable from the
walk's current id (given that every id on the path has stepped to the
current one). -/
theorem parentWalk_sound (t : List (Int × Partner)) :
    ∀ (cur : Int) (path : Finset Int),
      (∀ x ∈ path, Relation.TransGen (pstep t) x cur) →
      (CycleDetector.parentWalk t cur path).1 = true →
      reachesCycle t cur := by
  intro cur path
  induction cur, path using CycleDetector.parentWalk.induct t with
  | case1 cur path hget =>
    intro _ hres
    rw [parentWalk_missing hget] at hres
    cases hres
  | case2 cur path p hget hmem =>
    intro hinv _
    exact ⟨cur, Relation.ReflTransGen.refl, hinv cur hmem⟩
  | case3 cur path p hget hmem hpar =>
    intro _ hres
    rw [parentWalk_atRoot hget hmem hpar] at hres
    cases hres
  | case4 cur path p hget hmem pv hpar hkey =>
    intro _ hres
    rw [parentWalk_badKey hget hmem hpar hkey] at hres
    cases hres
  | case5 cur path p hget hmem path1 pv hpar q hkey ih =>
    intro hinv hres
    rw [parentWalk_step hget hmem hpar hkey] at hres
    have hstep : pstep t cur q := ⟨p, hget, pv, hpar, hkey⟩
    have hinv₂ : ∀ x ∈ insert cur path, Relation.TransGen (pstep t) x q := by
      intro x hx
      rcases Finset.mem_insert.mp hx with rfl | hx₂
      · exact Relation.TransGen.single hstep
      · exact (hinv x hx₂).tail hstep
    obtain ⟨i, hreach, hcyc⟩ := ih hinv₂ hres
    exact ⟨i, Relation.ReflTransGen.head hstep hreach, hcyc⟩

/-- If a cycle is reachable from the walk's current id, the walk answers
`True` (whatever the path). -/
theorem parentWalk_complete (t : List (Int × Partner)) :
    ∀ (cur : Int) (path : Finset Int),
      reachesCycle t cur → (CycleDetector.parentWalk t cur path).1 = true := by
  intro cur path
  induction cur, path using CycleDetector.parentWalk.induct t with
  | case1 cur path hget =>
    intro hcr
    exact absurd hcr (not_reachesCycle_of_stuck (no_pstep_missing hget))
  | case2 cur path p hget hmem =>
    intro _
    rw [parentWalk_found hget hmem]
  | case3 cur path p hget hmem hpar =>
    intro hcr
    exact absurd hcr (not_reachesCycle_of_stuck (no_pstep_root hget hpar))
  | case4 cur path p hget hmem pv hpar hkey =>
    intro hcr
    exact absurd hcr (not_reachesCycle_of_stuck (no_pstep_badKey hget hpar hkey))
  | case5 cur path p hget hmem path1 pv hpar q hkey ih =>
    rintro ⟨i, hreach, hcyc⟩
    rw [parentWalk_step hget hmem hpar hkey]
    rcases Relation.ReflTransGen.cases_head hreach with rfl | ⟨c, hc, hcreach⟩
    · obtain ⟨c, hc, hcreach⟩ := (Relation.TransGen.head'_iff).mp hcyc
      have hcq : c = q := pstep_unique hget hpar hkey hc
      subst hcq
      exact ih ⟨cur, hcreach, hcyc⟩
    · have hcq : c = q := pstep_unique hget hpar hkey hc
      subst hcq
      exact ih ⟨i, hcreach, hcyc⟩

/-- Every id a `False` walk adds to the visited set has no reachable
cycle. -/
theorem parentWalk_false_spec (t : List (Int × Partner)) :
    ∀ (cur : Int) (path : Finset Int),
      (CycleDetector.parentWalk t cur path).1 = false →
      ∀ x ∈ (CycleDetector.parentWalk t cur path).2,
        x ∈ path ∨ ¬ reachesCycle t x := by
  intro cur path
  induction cur, path using CycleDetector.parentWalk.induct t with
  | case1 cur path hget =>
    intro _ x hx
    rw [parentWalk_missing hget] at hx
    exact Or.inl hx
  | case2 cur path p hget hmem =>
    intro hres
    rw [parentWalk_found hget hmem] at hres
    cases hres
  | case3 cur path p hget hmem hpar =>
    intro _ x hx
    rw [parentWalk_atRoot hget hmem hpar] at hx
    rcases Finset.mem_insert.mp hx with rfl | hx₂
    · exact Or.inr (not_reachesCycle_of_stuck (no_pstep_root hget hpar))
    · exact Or.inl hx₂
  | case4 cur path p hget hmem pv hpar hkey =>
    intro _ x hx
    rw [parentWalk_badKey hget hmem hpar hkey] at hx
    rcases Finset.mem_insert.mp hx with rfl | hx₂
    · exact Or.inr (not_reachesCycle_of_stuck (no_pstep_badKey hget hpar hkey))
    · exact Or.inl hx₂
  | case5 cur path p hget hmem path1 pv hpar q hkey ih =>
    intro hres x hx
    rw [parentWalk_step hget hmem hpar hkey] at hres hx
    rcases ih hres x hx with hx₂ | hncr
    · rcases Finset.mem_insert.mp hx₂ with rfl | hx₃
      · refine Or.inr ?_
        intro hcr
        have := parentWalk_complete t x path hcr
        rw [parentWalk_step hget hmem hpar hkey] at this
        rw [this] at hres
        cases hres
      · exact Or.inl hx₃
    · exact Or.inr hncr

theorem hasCyclesAux_some (t : List (Int × Partner)) :
    ∀ (l : List Partner) (visited : Finset Int) (s : Int),
      CycleDetector.hasCyclesAux t l visited = some s → reachesCycle t s := by
  intro l
  induction l with
  | nil => intro visited s h; cases h
  | cons p rest ih =>
    intro visited s h
    simp only [CycleDetector.hasCyclesAux] at h
    by_cases hv : p.id ∈ visited
    · rw [if_pos hv] at h
      exact ih _ _ h
    · rw [if_neg hv] at h
      rcases hw : CycleDetector.parentWalk t p.id ∅ with ⟨_ | _, s₂⟩
      · rw [hw] at h
        exact ih _ _ h
      · rw [hw] at h
        cases h
        exact parentWalk_sound t p.id ∅ (by simp) (by rw [hw])

theorem hasCyclesAux_none (t : List (Int × Partner)) :
    ∀ (l : List Partner) (visited : Finset Int),
      (∀ x ∈ visited, ¬ reachesCycle t x) →
      CycleDetector.hasCyclesAux t l visited = none →
      ∀ p ∈ l, ¬ reachesCycle t p.id := by
  intro l
  induction l with
  | nil => intro visited _ _ p hp; cases hp
  | cons p rest ih =>
    intro visited hinv h
    simp only [CycleDetector.hasCyclesAux] at h
    by_cases hv : p.id ∈ visited
    · rw [if_pos hv] at h
      intro p₂ hp₂
      rcases List.mem_cons.mp hp₂ with rfl | hp₃
      · exact hinv p₂.id hv
      · exact ih visited hinv h p₂ hp₃
    · rw [if_neg hv] at h
      rcases hw : CycleDetector.parentWalk t p.id ∅ with ⟨_ | _, s₂⟩
      · rw [hw] at h
        have hfalse : (CycleDetector.parentWalk t p.id ∅).1 = false := by rw [hw]
        have hncr : ¬ reachesCycle t p.id := by
          intro hcr
          have := parentWalk_complete t p.id ∅ hcr
          rw [this] at hfalse
          cases hfalse
        have hinv₂ : ∀ x ∈ visited ∪ s₂, ¬ reachesCycle t x := by
          intro x hx
          rcases Finset.mem_union.mp hx with hx₁ | hx₂
          · exact hinv x hx₁
          · have hx₃ : x ∈ (CycleDetector.parentWalk t p.id ∅).2 := by rw [hw]; exact hx₂
            rcases parentWalk_false_spec t p.id ∅ hfalse x hx₃ with hc | hc
            · cases hc
            · exact hc
        intro p₂ hp₂
        rcases List.mem_cons.mp hp₂ with rfl | hp₃
        · exact hncr
        · exact ih (visited ∪ s₂) hinv₂ h p₂ hp₃
      · rw [hw] at h
        cases h

/-- **C2**: on any built forest (dict keys carry the objects' own ids), the
Structural Validator raises `CYCLE_DETECTED` — carrying an implicated id,
one from which the parent-link chain provably reaches a cycle — exactly
when some id is reachable from itself by following `parent_id` links
(a self-reference `parent_id == id` being the one-step instance, caught by
the same walk); when no cycle exists it raises `NO_ROOT_PARTNERS` exactly
on an empty `roots`, so an all-cycles forest is reported as a cycle, never
as rootless. -/
theorem validator_contract (t : PartnerTree)
    (hkv : ∀ kv ∈ t.partners, kv.2.id = kv.1) :
    ((∃ s, TreeValidator.validate t = .error (.cycleDetected s)) ↔ cycleExists t.partners) ∧
    (∀ s, TreeValidator.validate t = .error (.cycleDetected s) →
      ∃ i, Relation.ReflTransGen (pstep t.partners) s i ∧
        Relation.TransGen (pstep t.partners) i i) ∧
    (¬ cycleExists t.partners → t.get_roots = [] →
      TreeValidator.validate t = .error .noRootPartners) ∧
    (¬ cycleExists t.partners → t.get_roots ≠ [] → TreeValidator.validate t = .ok ()) ∧
    (∀ i p pv, dictGet t.partners i = some p → p.parent_id = some pv → pyKey pv = some i →
      ∃ s, TreeValidator.validate t = .error (.cycleDetected s)) := by
  have hcases : ∀ s, CycleDetector.hasCyclesAux t.partners t.get_all_partners ∅ = some s →
      TreeValidator.validate t = .error (.cycleDetected s) := by
    intro s hs
    unfold TreeValidator.validate CycleDetector.has_cycles
    rw [hs]
  have hnonecase : CycleDetector.hasCyclesAux t.partners t.get_all_partners ∅ = none →
      TreeValidator.validate t =
        (if t.get_roots = [] then .error .noRootPartners else .ok ()) := by
    intro hs
    unfold TreeValidator.validate CycleDetector.has_cycles
    rw [hs]
  have hiff : (∃ s, TreeValidator.validate t = .error (.cycleDetected s)) ↔
      cycleExists t.partners := by
    constructor
    · rintro ⟨s, hs⟩
      rcases haux : CycleDetector.hasCyclesAux t.partners t.get_all_partners ∅ with _ | s₂
      · rw [hnonecase haux] at hs
        split at hs <;> cases hs
      · obtain ⟨i, _, hcyc⟩ := hasCyclesAux_some t.partners _ _ _ haux
        exact ⟨i, hcyc⟩
    · rintro ⟨c, hc⟩
      rcases haux : CycleDetector.hasCyclesAux t.partners t.get_all_partners ∅ with _ | s₂
      · exfalso
        obtain ⟨x, hx, _⟩ := (Relation.TransGen.head'_iff).mp hc
        obtain ⟨pc, hgetc, _⟩ := hx
        have hmem : pc ∈ t.get_all_partners := by
          unfold PartnerTree.get_all_partners
          exact List.mem_map.mpr ⟨(c, pc), dictGet_mem hgetc, rfl⟩
        have hpcid : pc.id = c := hkv (c, pc) (dictGet_mem hgetc)
        have := hasCyclesAux_none t.partners t.get_all_partners ∅ (by simp) haux pc hmem
        rw [hpcid] at this
        exact this ⟨c, Relation.ReflTransGen.refl, hc⟩
      · exact ⟨s₂, hcases s₂ haux⟩
  refine ⟨hiff, ?_, ?_, ?_, ?_⟩
  · intro s hs
    rcases haux : CycleDetector.hasCyclesAux t.partners t.get_all_partners ∅ with _ | s₂
    · rw [hnonecase haux] at hs
      split at hs <;> cases hs
    · have := hcases s₂ haux
      rw [this] at hs
      cases hs
      exact hasCyclesAux_some t.partners _ _ _ haux
  · intro hnc hroots
    rcases haux : CycleDetector.hasCyclesAux t.partners t.get_all_partners ∅ with _ | s₂
    · rw [hnonecase haux, if_pos hroots]
    · exact absurd (hiff.mp ⟨s₂, hcases s₂ haux⟩) hnc
  · intro hnc hroots
    rcases haux : CycleDetector.hasCyclesAux t.partners t.get_all_partners ∅ with _ | s₂
    · rw [hnonecase haux, if_neg hroots]
    · exact absurd (hiff.mp ⟨s₂, hcases s₂ haux⟩) hnc
  · intro i p pv hget hpar hkey
    exact hiff.mpr ⟨i, Relation.TransGen.single ⟨p, hget, pv, hpar, hkey⟩⟩

/-! ## C1 — commission values against the spec's strict-descendant sums -/

theorem PTree.inductionOn (motive : PTree → Prop)
    (h : ∀ p cs, (∀ c ∈ cs, motive c) → motive (.node p cs)) : ∀ T, motive T := by
  have H : ∀ (n : Nat) (T : PTree), sizeOf T ≤ n → motive T := by
    intro n
    induction n with
    | zero =>
      intro T hT
      cases T with
      | node p cs => simp only [PTree.node.sizeOf_spec] at hT; omega
    | succ n ih =>
      intro T hT
      cases T with
      | node p cs =>
        apply h
        intro c hc
        apply ih
        have := List.sizeOf_lt_of_mem hc
        simp only [PTree.node.sizeOf_spec] at hT
        omega
  exact fun T => H (sizeOf T) T le_rfl

theorem subtreesList_mem_iff (S : PTree) :
    ∀ cs : List PTree, S ∈ PTree.subtreesList cs ↔ ∃ c ∈ cs, S ∈ PTree.subtrees c := by
  intro cs
  induction cs with
  | nil => simp [PTree.subtreesList]
  | cons c rest ih =>
    simp only [PTree.subtreesList, List.mem_append, ih, List.mem_cons]
    constructor
    · rintro (h | ⟨c₂, hc₂, hS⟩)
      · exact ⟨c, Or.inl rfl, h⟩
      · exact ⟨c₂, Or.inr hc₂, hS⟩
    · rintro ⟨c₂, (rfl | hc₂), hS⟩
      · exact Or.inl hS
      · exact Or.inr ⟨c₂, hc₂, hS⟩

theorem idsList_mem_iff (x : Int) :
    ∀ cs : List PTree, x ∈ PTree.idsList cs ↔ ∃ c ∈ cs, x ∈ PTree.ids c := by
  intro cs
  induction cs with
  | nil => simp [PTree.idsList]
  | cons c rest ih =>
    simp only [PTree.idsList, List.mem_append, ih, List.mem_cons]
    constructor
    · rintro (h | ⟨c₂, hc₂, hS⟩)
      · exact ⟨c, Or.inl rfl, h⟩
      · exact ⟨c₂, Or.inr hc₂, hS⟩
    · rintro ⟨c₂, (rfl | hc₂), hS⟩
      · exact Or.inl hS
      · exact Or.inr ⟨c₂, hc₂, hS⟩

/-- The root id of every node-rooted subtree occurs among the tree's ids. -/
theorem rootId_mem_ids :
    ∀ T : PTree, ∀ S ∈ PTree.subtrees T, S.rootId ∈ PTree.ids T := by
  intro T
  induction T using PTree.inductionOn with
  | h p cs ih =>
    intro S hS
    simp only [PTree.subtrees, List.mem_cons] at hS
    simp only [PTree.ids, List.mem_cons]
    rcases hS with rfl | hS
    · exact Or.inl rfl
    · obtain ⟨c, hc, hSc⟩ := (subtreesList_mem_iff S cs).mp hS
      exact Or.inr ((idsList_mem_iff _ cs).mpr ⟨c, hc, ih c hc S hSc⟩)

/-- Conversely, every id of the tree is the root id of some subtree. -/
theorem ids_mem_rootId :
    ∀ T : PTree, ∀ x ∈ PTree.ids T, ∃ S ∈ PTree.subtrees T, S.rootId = x := by
  intro T
  induction T using PTree.inductionOn with
  | h p cs ih =>
    intro x hx
    simp only [PTree.ids, List.mem_cons] at hx
    simp only [PTree.subtrees]
    rcases hx with rfl | hx
    · exact ⟨.node p cs, List.mem_cons_self _ _, rfl⟩
    · obtain ⟨c, hc, hxc⟩ := (idsList_mem_iff x cs).mp hx
      obtain ⟨S, hS, hSr⟩ := ih c hc x hxc
      exact ⟨S, List.mem_cons_of_mem _ ((subtreesList_mem_iff S cs).mpr ⟨c, hc, hS⟩), hSr⟩

/-- Lookup through a `maskC`-equality: same keys, and the found objects
agree except possibly on `total_commission`. -/
theorem dictGet_maskC_congr {a b : List (Int × Partner)}
    (h : a.map maskC = b.map maskC) (k : Int) :
    (dictGet a k).map (fun q => { q with total_commission := 0 }) =
      (dictGet b k).map (fun q => { q with total_commission := 0 }) := by
  have ha := dictGet_mapVals (fun q => { q with total_commission := 0 }) a k
  have hb := dictGet_mapVals (fun q => { q with total_commission := 0 }) b k
  have hab : a.map (fun kv => (kv.1, { kv.2 with total_commission := 0 })) =
      b.map (fun kv => (kv.1, { kv.2 with total_commission := 0 })) := h
  rw [← ha, ← hb, hab]

theorem hkv_of_maskC_eq :
    ∀ {a b : List (Int × Partner)}, a.map maskC = b.map maskC →
      (∀ kv ∈ b, kv.2.id = kv.1) → ∀ kv ∈ a, kv.2.id = kv.1 := by
  intro a
  induction a with
  | nil => intro b _ _ kv hkv; cases hkv
  | cons hd tl ih =>
    intro b h hb kv hkv
    cases b with
    | nil => cases h
    | cons hd₂ tl₂ =>
      simp only [List.map_cons, List.cons.injEq] at h
      rcases List.mem_cons.mp hkv with rfl | hkv₂
      · have h₁ : (maskC kv).2.id = (maskC hd₂).2.id := by rw [h.1]
        have h₂ : (maskC kv).1 = (maskC hd₂).1 := by rw [h.1]
        have h₃ := hb hd₂ (List.mem_cons_self _ _)
        simp only [maskC] at h₁ h₂
        rw [h₁, h₂, h₃]
      · exact ih h.2 (fun kv₂ hkv₂ => hb kv₂ (List.mem_cons_of_mem _ hkv₂)) kv hkv₂

/-- First-match lookup in the output mapping. -/
def strLookup (out : List (String × ℚ)) (k : String) : Option ℚ :=
  match out with
  | [] => none
  | (k₁, v) :: rest => if k₁ = k then some v else strLookup rest k

/-- Looking up `str(k)` in the formatted output is looking up `k` in the
dict and rounding its commission (`str` is injective on integers). -/
theorem strLookup_format (ps : List (Int × Partner)) (hkv : ∀ kv ∈ ps, kv.2.id = kv.1)
    (k : Int) :
    strLookup (CommissionCalculator.format_results ps) (intStr k) =
      (dictGet ps k).map (fun p => MathUtils.round_currency p.total_commission) := by
  induction ps with
  | nil => rfl
  | cons hd tl ih =>
    obtain ⟨k₁, v₁⟩ := hd
    have hid : v₁.id = k₁ := hkv (k₁, v₁) (List.mem_cons_self _ _)
    simp only [CommissionCalculator.format_results, List.map_cons, strLookup, dictGet, hid]
    by_cases hk : k₁ = k
    · rw [if_pos (by rw [hk]), if_pos hk]
      rfl
    · rw [if_neg (fun hcon => hk (intStr_inj hcon)), if_neg hk]
      exact ih (fun kv hkv₂ => hkv kv (List.mem_cons_of_mem _ hkv₂))

theorem optionMapM_cons {α β : Type} {f : α → Option β} {c : α} {l : List α} {out : List β}
    (h : (c :: l).mapM f = some out) :
    ∃ b bs, f c = some b ∧ l.mapM f = some bs ∧ out = b :: bs := by
  rw [List.mapM_cons] at h
  cases hc : f c with
  | none => rw [hc] at h; cases h
  | some b =>
    rw [hc] at h
    cases hl : l.mapM f with
    | none => rw [hl] at h; cases h
    | some bs =>
      rw [hl] at h
      cases h
      exact ⟨b, bs, rfl, rfl, rfl⟩

theorem optionMapM_nil {α β : Type} {f : α → Option β} {out : List β}
    (h : ([] : List α).mapM f = some out) : out = [] := by
  rw [List.mapM_nil] at h
  cases h
  rfl

/-- Successful `unflatten` at positive fuel decomposes into a dict hit and
recursively unflattened children. -/
theorem unflatten_succ_some {t0 : List (Int × Partner)} {fuel : Nat} {pid : Int} {T : PTree}
    (hT : unflatten t0 (fuel + 1) pid = some T) :
    ∃ p, dictGet t0 pid = some p ∧
      ∃ cs, p.children.mapM (unflatten t0 fuel) = some cs ∧ T = PTree.node p cs := by
  cases hget : dictGet t0 pid with
  | none => simp [unflatten, hget] at hT
  | some p =>
    simp only [unflatten, hget] at hT
    have hT' : (match p.children.mapM (unflatten t0 fuel) with
        | none => none
        | some cs => some (PTree.node p cs)) = some T := hT
    cases hcs : p.children.mapM (unflatten t0 fuel) with
    | none => rw [hcs] at hT'; cases hT'
    | some cs =>
      rw [hcs] at hT'
      cases hT'
      exact ⟨p, rfl, cs, hcs, rfl⟩

theorem childFold_nil (fuel : Nat) (st : (List (Int × Partner)) × ℚ) :
    CommissionCalculator.childFold fuel [] st = st := rfl

theorem childFold_cons (fuel : Nat) (c : Int) (l : List Int)
    (st : (List (Int × Partner)) × ℚ) :
    CommissionCalculator.childFold fuel (c :: l) st =
      CommissionCalculator.childFold fuel l
        ((CommissionCalculator.calcSubtree st.1 fuel c).1,
         st.2 + (CommissionCalculator.calcSubtree st.1 fuel c).2) := rfl

/-- The shape of one `calcSubtree` call when the id is present: run the
child fold, then re-read the live object and write its commission. -/
theorem calcSubtree_eq (t : List (Int × Partner)) (fuel : Nat) (pid : Int) (p : Partner)
    (h : dictGet t pid = some p) :
    CommissionCalculator.calcSubtree t (fuel + 1) pid =
      (dictUpdate (CommissionCalculator.childFold fuel p.children (t, 0)).1 pid
        (fun q => { q with total_commission :=
          ((CommissionCalculator.childFold fuel p.children (t, 0)).2
            + ((dictGet (CommissionCalculator.childFold fuel p.children (t, 0)).1 pid).getD
                p).daily_profit
            - ((dictGet (CommissionCalculator.childFold fuel p.children (t, 0)).1 pid).getD
                p).daily_profit)
            * Constants.COMMISSION_RATE }),
       (CommissionCalculator.childFold fuel p.children (t, 0)).2
         + ((dictGet (CommissionCalculator.childFold fuel p.children (t, 0)).1 pid).getD
             p).daily_profit) := by
  simp only [CommissionCalculator.calcSubtree, h, CommissionCalculator.childFold]

/-- Lookup through a `maskC`-equality, success direction: the other dict
holds an object agreeing on every field except possibly
`total_commission`. -/
theorem dictGet_maskC_some {a b : List (Int × Partner)}
    (h : a.map maskC = b.map maskC) {k : Int} {p : Partner}
    (hb : dictGet b k = some p) :
    ∃ q, dictGet a k = some q ∧ q.id = p.id ∧ q.daily_profit = p.daily_profit ∧
      q.children = p.children := by
  have hc := dictGet_maskC_congr h k
  rw [hb] at hc
  cases hga : dictGet a k with
  | none => rw [hga] at hc; cases hc
  | some q =>
    rw [hga] at hc
    simp only [Option.map_some'] at hc
    injection hc with hc
    injection hc with h1 h2 h3 h4 h5 h6 h7
    exact ⟨q, rfl, h1, h6, h5⟩

theorem rootId_mem_idsList {cs : List PTree} {S : PTree}
    (h : S ∈ PTree.subtreesList cs) : S.rootId ∈ PTree.idsList cs := by
  obtain ⟨c, hc, hS⟩ := (subtreesList_mem_iff S cs).mp h
  exact (idsList_mem_iff _ cs).mpr ⟨c, hc, rootId_mem_ids c S hS⟩

/-- The heart of C1: on a dict whose non-commission data matches `t0`, one
`calcSubtree` call at an id whose subtree unflattens to `T` (with distinct
ids) returns the subtree's profit sum, touches no entry outside `T`, and
leaves every node of `T` holding commission
`strictDescProfit * COMMISSION_RATE`. -/
theorem calcSubtree_spec (t0 : List (Int × Partner)) (hkv : ∀ kv ∈ t0, kv.2.id = kv.1) :
    ∀ (fuel : Nat) (pid : Int) (T : PTree) (ps : List (Int × Partner)),
    unflatten t0 fuel pid = some T →
    ps.map maskC = t0.map maskC →
    (PTree.ids T).Nodup →
    (CommissionCalculator.calcSubtree ps fuel pid).2 = PTree.profitSum T ∧
    (∀ k, k ∉ PTree.ids T →
      dictGet (CommissionCalculator.calcSubtree ps fuel pid).1 k = dictGet ps k) ∧
    (∀ S ∈ PTree.subtrees T, ∃ q,
      dictGet (CommissionCalculator.calcSubtree ps fuel pid).1 S.rootId = some q ∧
      q.total_commission = PTree.strictDescProfit S * Constants.COMMISSION_RATE) := by
  intro fuel
  induction fuel with
  | zero =>
    intro pid T ps hT
    exact absurd hT (by simp [unflatten])
  | succ fuel ih =>
    have hfold : ∀ (l : List Int) (cs : List PTree) (ps₁ : List (Int × Partner)) (acc : ℚ),
        l.mapM (unflatten t0 fuel) = some cs →
        ps₁.map maskC = t0.map maskC →
        (PTree.idsList cs).Nodup →
        (CommissionCalculator.childFold fuel l (ps₁, acc)).2 =
          acc + PTree.profitSumList cs ∧
        ((CommissionCalculator.childFold fuel l (ps₁, acc)).1).map maskC = t0.map maskC ∧
        (∀ k, k ∉ PTree.idsList cs →
          dictGet (CommissionCalculator.childFold fuel l (ps₁, acc)).1 k = dictGet ps₁ k) ∧
        (∀ S ∈ PTree.subtreesList cs, ∃ q,
          dictGet (CommissionCalculator.childFold fuel l (ps₁, acc)).1 S.rootId = some q ∧
          q.total_commission = PTree.strictDescProfit S * Constants.COMMISSION_RATE) := by
      intro l
      induction l with
      | nil =>
        intro cs ps₁ acc hcs hmask hnd
        have hcs0 : cs = [] := optionMapM_nil hcs
        subst hcs0
        refine ⟨?_, ?_, ?_, ?_⟩
        · simp [childFold_nil, PTree.profitSumList]
        · simpa [childFold_nil] using hmask
        · intro k hk
          simp [childFold_nil]
        · intro S hS
          simp [PTree.subtreesList] at hS
      | cons c l ihl =>
        intro cs ps₁ acc hcs hmask hnd
        obtain ⟨T1, cs', hT1, hcs', rfl⟩ := optionMapM_cons hcs
        simp only [PTree.idsList] at hnd
        rw [List.nodup_append] at hnd
        obtain ⟨hnd1, hnd2, hdisj⟩ := hnd
        obtain ⟨hprof1, hframe1, hsub1⟩ := ih c T1 ps₁ hT1 hmask hnd1
        have hmask1 : ((CommissionCalculator.calcSubtree ps₁ fuel c).1).map maskC =
            t0.map maskC := (calcSubtree_maskC fuel ps₁ c).trans hmask
        obtain ⟨hprofr, hmaskr, hframer, hsubr⟩ :=
          ihl cs' (CommissionCalculator.calcSubtree ps₁ fuel c).1
            (acc + (CommissionCalculator.calcSubtree ps₁ fuel c).2) hcs' hmask1 hnd2
        rw [childFold_cons]
        dsimp only
        refine ⟨?_, hmaskr, ?_, ?_⟩
        · rw [hprofr, hprof1]
          simp only [PTree.profitSumList]
          ring
        · intro k hk
          simp only [PTree.idsList, List.mem_append] at hk
          push_neg at hk
          rw [hframer k hk.2, hframe1 k hk.1]
        · intro S hS
          simp only [PTree.subtreesList, List.mem_append] at hS
          rcases hS with hS1 | hS2
          · obtain ⟨q, hq, hqc⟩ := hsub1 S hS1
            refine ⟨q, ?_, hqc⟩
            have hroot : S.rootId ∈ PTree.ids T1 := rootId_mem_ids T1 S hS1
            have hnot : S.rootId ∉ PTree.idsList cs' := fun hmem => hdisj hroot hmem
            rw [hframer _ hnot, hq]
          · exact hsubr S hS2
    intro pid T ps hT hmask hnd
    obtain ⟨p, hget0, cs, hcs, rfl⟩ := unflatten_succ_some hT
    have hpid : p.id = pid := hkv (pid, p) (dictGet_mem hget0)
    obtain ⟨p', hget', hid', hdaily', hchild'⟩ := dictGet_maskC_some hmask hget0
    simp only [PTree.ids] at hnd
    rw [List.nodup_cons] at hnd
    obtain ⟨hpnot, hndcs⟩ := hnd
    rw [hpid] at hpnot
    obtain ⟨hprof, hmaskN, hframe, hsub⟩ :=
      hfold p'.children cs ps 0 (by rw [hchild']; exact hcs) hmask hndcs
    have hlive : dictGet (CommissionCalculator.childFold fuel p'.children (ps, 0)).1 pid =
        some p' := by
      rw [hframe pid hpnot]
      exact hget'
    rw [calcSubtree_eq ps fuel pid p' hget']
    rw [hlive]
    simp only [Option.getD_some]
    refine ⟨?_, ?_, ?_⟩
    · simp only [PTree.profitSum]
      rw [hprof, hdaily']
      ring
    · intro k hk
      simp only [PTree.ids, List.mem_cons] at hk
      push_neg at hk
      rw [dictGet_dictUpdate_ne _ _ (by rw [← hpid]; exact hk.1), hframe k hk.2]
    · intro S hS
      simp only [PTree.subtrees, List.mem_cons] at hS
      rcases hS with rfl | hS2
      · refine ⟨{ p' with total_commission :=
            ((CommissionCalculator.childFold fuel p'.children (ps, 0)).2
              + p'.daily_profit - p'.daily_profit) * Constants.COMMISSION_RATE }, ?_, ?_⟩
        · dsimp only [PTree.rootId]
          rw [hpid, dictGet_dictUpdate_self, hlive, Option.map_some']
        · simp only [PTree.strictDescProfit]
          rw [hprof]
          ring
      · obtain ⟨q, hq, hqc⟩ := hsub S hS2
        refine ⟨q, ?_, hqc⟩
        have hroot : S.rootId ∈ PTree.idsList cs := rootId_mem_idsList hS2
        have hne : S.rootId ≠ pid := fun hcon => hpnot (hcon ▸ hroot)
        rw [dictGet_dictUpdate_ne _ _ hne, hq]

/-- `calcSubtree_spec` composed over the roots loop of
`calculate_commissions`. -/
theorem rootsFold_spec (t0 : List (Int × Partner)) (hkv : ∀ kv ∈ t0, kv.2.id = kv.1)
    (fuel : Nat) :
    ∀ (roots : List Int) (F : List PTree) (ps : List (Int × Partner)),
    roots.mapM (unflatten t0 fuel) = some F →
    ps.map maskC = t0.map maskC →
    (PTree.idsList F).Nodup →
    ((roots.foldl (fun ps r => (CommissionCalculator.calcSubtree ps fuel r).1) ps).map maskC
      = t0.map maskC) ∧
    (∀ k, k ∉ PTree.idsList F →
      dictGet (roots.foldl (fun ps r => (CommissionCalculator.calcSubtree ps fuel r).1) ps) k
        = dictGet ps k) ∧
    (∀ S ∈ PTree.subtreesList F, ∃ q,
      dictGet (roots.foldl (fun ps r => (CommissionCalculator.calcSubtree ps fuel r).1) ps)
        S.rootId = some q ∧
      q.total_commission = PTree.strictDescProfit S * Constants.COMMISSION_RATE) := by
  intro roots
  induction roots with
  | nil =>
    intro F ps hF hmask hnd
    have hF0 : F = [] := optionMapM_nil hF
    subst hF0
    refine ⟨hmask, fun k _ => rfl, ?_⟩
    intro S hS
    simp [PTree.subtreesList] at hS
  | cons r roots ihr =>
    intro F ps hF hmask hnd
    obtain ⟨T1, F', hT1, hF', rfl⟩ := optionMapM_cons hF
    simp only [PTree.idsList] at hnd
    rw [List.nodup_append] at hnd
    obtain ⟨hnd1, hnd2, hdisj⟩ := hnd
    obtain ⟨hprof1, hframe1, hsub1⟩ := calcSubtree_spec t0 hkv fuel r T1 ps hT1 hmask hnd1
    have hmask1 : ((CommissionCalculator.calcSubtree ps fuel r).1).map maskC = t0.map maskC :=
      (calcSubtree_maskC fuel ps r).trans hmask
    obtain ⟨hmaskr, hframer, hsubr⟩ :=
      ihr F' (CommissionCalculator.calcSubtree ps fuel r).1 hF' hmask1 hnd2
    simp only [List.foldl_cons]
    refine ⟨hmaskr, ?_, ?_⟩
    · intro k hk
      simp only [PTree.idsList, List.mem_append] at hk
      push_neg at hk
      rw [hframer k hk.2, hframe1 k hk.1]
    · intro S hS
      simp only [PTree.subtreesList, List.mem_append] at hS
      rcases hS with hS1 | hS2
      · obtain ⟨q, hq, hqc⟩ := hsub1 S hS1
        have hroot : S.rootId ∈ PTree.ids T1 := rootId_mem_ids T1 S hS1
        exact ⟨q, by rw [hframer _ (fun hm => hdisj hroot hm), hq], hqc⟩
      · exact hsubr S hS2

/-- The spec's two phrasings agree: subtree profit minus the root's own
daily profit is the strict-descendant profit. -/
theorem profitSum_sub_daily (S : PTree) :
    PTree.profitSum S - (PTree.rootPartner S).daily_profit = PTree.strictDescProfit S := by
  cases S with
  | node p cs =>
    simp only [PTree.profitSum, PTree.rootPartner, PTree.strictDescProfit]
    ring

theorem round_currency_zero : MathUtils.round_currency 0 = 0 := by
  norm_num [MathUtils.round_currency, MathUtils.pyRound]

/-- C1: after the Commission Aggregator runs on a validated forest whose
`daily_profit` fields are populated (a `PartnerTree` whose roots unflatten
into trees `F` with pairwise-distinct ids), then for every node of the
forest — every subtree root `S` — the output mapping's value at
`str(S.rootId)` is `round(COMMISSION_RATE * strictDescProfit S, 2)`; the
node's stored `total_commission` is
`(profitSum S - own daily_profit) * COMMISSION_RATE`, so a node earns no
commission on its own profit; and every leaf's output commission is 0. -/
theorem commission_correctness (t : PartnerTree) (F : List PTree)
    (hkv : ∀ kv ∈ t.partners, kv.2.id = kv.1)
    (hF : unflattenForest t = some F)
    (hnd : (PTree.idsList F).Nodup) :
    (∀ S ∈ PTree.subtreesList F,
      strLookup (CommissionCalculator.calculate_commissions t).2 (intStr S.rootId) =
        some (MathUtils.round_currency
          (Constants.COMMISSION_RATE * PTree.strictDescProfit S))) ∧
    (∀ S ∈ PTree.subtreesList F, ∃ q,
      dictGet ((CommissionCalculator.calculate_commissions t).1).partners S.rootId
          = some q ∧
      q.total_commission =
        (PTree.profitSum S - (PTree.rootPartner S).daily_profit) *
          Constants.COMMISSION_RATE) ∧
    (∀ p, PTree.node p [] ∈ PTree.subtreesList F →
      strLookup (CommissionCalculator.calculate_commissions t).2 (intStr p.id) = some 0) := by
  rw [unflattenForest] at hF
  obtain ⟨hmaskN, hframeN, hsubN⟩ :=
    rootsFold_spec t.partners hkv (t.partners.length + 1) t.get_roots F
      (CommissionCalculator.reset_commissions t.partners) hF (reset_maskC t.partners) hnd
  simp only [CommissionCalculator.calculate_commissions]
  have hkvN : ∀ kv ∈ t.get_roots.foldl
      (fun ps r => (CommissionCalculator.calcSubtree ps (t.partners.length + 1) r).1)
      (CommissionCalculator.reset_commissions t.partners), kv.2.id = kv.1 :=
    hkv_of_maskC_eq hmaskN hkv
  refine ⟨?_, ?_, ?_⟩
  · intro S hS
    obtain ⟨q, hq, hqc⟩ := hsubN S hS
    rw [strLookup_format _ hkvN, hq]
    simp only [Option.map_some']
    rw [hqc, mul_comm]
  · intro S hS
    obtain ⟨q, hq, hqc⟩ := hsubN S hS
    exact ⟨q, hq, by rw [hqc, profitSum_sub_daily]⟩
  · intro p hp
    obtain ⟨q, hq, hqc⟩ := hsubN _ hp
    rw [strLookup_format _ hkvN]
    rw [show PTree.rootId (PTree.node p []) = p.id from rfl] at hq
    rw [hq]
    simp only [Option.map_some']
    rw [hqc]
    simp [PTree.strictDescProfit, PTree.profitSumList, round_currency_zero]

/-- The root object of a two-node forest used to witness C1, with
`daily_profit` populated. -/
def c1Root : Partner :=
  { id := 1, parent_id := none, name := .pystr "", monthly_revenue := 93,
    children := [2], daily_profit := 3, total_commission := 0 }

/-- The leaf child of `c1Root`. -/
def c1Child : Partner :=
  { id := 2, parent_id := some (.pyint 1), name := .pystr "", monthly_revenue := 124,
    children := [], daily_profit := 4, total_commission := 0 }

/-- The two-node `PartnerTree` used to witness C1. -/
def c1Tree : PartnerTree := ⟨[(1, c1Root), (2, c1Child)], [1]⟩

/-- The forest `c1Tree` unflattens to. -/
def c1Forest : List PTree := [.node c1Root [.node c1Child []]]

/-! ## C4 — one output entry per distinct id, not per record -/

/-- The dict key under which `_create_partners` stores a record's object
(`createPartner`'s `id` field). -/
def recordId (v : PyVal) : Int :=
  (pyKey ((getField (TreeBuilder.asItem v) "id").getD .pynone)).getD 0

theorem keys_of_maskC_eq {a b : List (Int × Partner)}
    (h : a.map maskC = b.map maskC) : a.map Prod.fst = b.map Prod.fst := by
  have h2 := congrArg (List.map Prod.fst) h
  simp only [List.map_map] at h2
  rwa [List.map_congr_left (fun kv _ => rfl : ∀ kv ∈ a, (Prod.fst ∘ maskC) kv = Prod.fst kv),
    List.map_congr_left (fun kv _ => rfl : ∀ kv ∈ b, (Prod.fst ∘ maskC) kv = Prod.fst kv)]
    at h2

theorem dictUpdate_hkv {t : List (Int × Partner)} {k : Int} {f : Partner → Partner}
    (hid : ∀ q, (f q).id = q.id) (h : ∀ kv ∈ t, kv.2.id = kv.1) :
    ∀ kv ∈ dictUpdate t k f, kv.2.id = kv.1 := by
  induction t with
  | nil => intro kv hkv; cases hkv
  | cons hd tl ih =>
    obtain ⟨k₁, v₁⟩ := hd
    have hhd := h (k₁, v₁) (List.mem_cons_self _ _)
    have htl := fun kv hkv => h kv (List.mem_cons_of_mem _ hkv)
    intro kv hkv
    simp only [dictUpdate] at hkv
    by_cases hk : k₁ = k
    · rw [if_pos hk] at hkv
      rcases List.mem_cons.mp hkv with rfl | hkv₂
      · simpa [hid] using hhd
      · exact ih htl kv hkv₂
    · rw [if_neg hk] at hkv
      rcases List.mem_cons.mp hkv with rfl | hkv₂
      · exact hhd
      · exact ih htl kv hkv₂

/-- Invariants of `_create_partners`: every stored object's `id` is its
key, keys stay distinct, every root id and every processed record's id is
a key, and keys are never removed. -/
theorem create_partners_invariants (items : List PyVal) :
    ∀ (t : PartnerTree),
    (∀ kv ∈ t.partners, kv.2.id = kv.1) →
    ((t.partners.map Prod.fst).Nodup) →
    (∀ r ∈ t.roots, r ∈ t.partners.map Prod.fst) →
    (∀ kv ∈ (TreeBuilder.create_partners items t).partners, kv.2.id = kv.1) ∧
    (((TreeBuilder.create_partners items t).partners.map Prod.fst).Nodup) ∧
    (∀ r ∈ (TreeBuilder.create_partners items t).roots,
      r ∈ (TreeBuilder.create_partners items t).partners.map Prod.fst) ∧
    (∀ v ∈ items,
      recordId v ∈ (TreeBuilder.create_partners items t).partners.map Prod.fst) ∧
    (∀ x ∈ t.partners.map Prod.fst,
      x ∈ (TreeBuilder.create_partners items t).partners.map Prod.fst) := by
  induction items with
  | nil =>
    intro t h1 h2 h3
    exact ⟨h1, h2, h3, fun v hv => absurd hv (List.not_mem_nil v), fun x hx => hx⟩
  | cons v rest ih =>
    intro t h1 h2 h3
    have hstep : TreeBuilder.create_partners (v :: rest) t =
        TreeBuilder.create_partners rest
          (t.add_partner (TreeBuilder.createPartner (TreeBuilder.asItem v))) := rfl
    rw [hstep]
    set p := TreeBuilder.createPartner (TreeBuilder.asItem v) with hp
    have h1' : ∀ kv ∈ (t.add_partner p).partners, kv.2.id = kv.1 := dictSet_hkv h1
    have h2' : (((t.add_partner p).partners).map Prod.fst).Nodup := dictSet_keys_nodup _ _ h2
    have h3' : ∀ r ∈ (t.add_partner p).roots, r ∈ ((t.add_partner p).partners).map Prod.fst := by
      intro r hr
      simp only [PartnerTree.add_partner] at hr ⊢
      rw [dictSet_keys_mem]
      by_cases hroot : p.is_root
      · rw [if_pos hroot] at hr
        rcases List.mem_append.mp hr with hr₁ | hr₂
        · exact Or.inr (h3 r hr₁)
        · rw [List.mem_singleton.mp hr₂]
          exact Or.inl rfl
      · rw [if_neg hroot] at hr
        exact Or.inr (h3 r hr)
    obtain ⟨H1, H2, H3, H4, H5⟩ := ih (t.add_partner p) h1' h2' h3'
    refine ⟨H1, H2, H3, ?_, ?_⟩
    · intro w hw
      rcases List.mem_cons.mp hw with rfl | hw₂
      · apply H5
        simp only [PartnerTree.add_partner]
        rw [dictSet_keys_mem]
        exact Or.inl rfl
      · exact H4 w hw₂
    · intro x hx
      apply H5
      simp only [PartnerTree.add_partner]
      rw [dictSet_keys_mem]
      exact Or.inr hx

/-- The wiring pass keeps the key list unchanged and keeps every object's
`id` equal to its key (it only appends to `children`). -/
theorem wireAll_keys_hkv :
    ∀ (snap : List Partner) (acc ps : List (Int × Partner)),
    TreeBuilder.wireAll acc snap = .ok ps →
    ps.map Prod.fst = acc.map Prod.fst ∧
    ((∀ kv ∈ acc, kv.2.id = kv.1) → ∀ kv ∈ ps, kv.2.id = kv.1) := by
  intro snap
  induction snap with
  | nil =>
    intro acc ps h
    simp only [TreeBuilder.wireAll] at h
    cases h
    exact ⟨rfl, fun hk => hk⟩
  | cons p rest ihs =>
    intro acc ps h
    simp only [TreeBuilder.wireAll] at h
    cases hw : TreeBuilder.wirePartner acc p with
    | error e => rw [hw] at h; cases h
    | ok acc₁ =>
      rw [hw] at h
      obtain ⟨hkeys, hkv⟩ := ihs acc₁ ps h
      have hstep : acc₁.map Prod.fst = acc.map Prod.fst ∧
          ((∀ kv ∈ acc, kv.2.id = kv.1) → ∀ kv ∈ acc₁, kv.2.id = kv.1) := by
        simp only [TreeBuilder.wirePartner] at hw
        cases hpar : p.parent_id with
        | none =>
          simp only [hpar] at hw
          cases hw
          exact ⟨rfl, fun hk => hk⟩
        | some pv =>
          simp only [hpar] at hw
          cases hkey : pyKey pv with
          | none => simp only [hkey] at hw; cases hw
          | some k =>
            simp only [hkey] at hw
            cases hget : dictGet acc k with
            | none => simp only [hget] at hw; cases hw
            | some q =>
              simp only [hget] at hw
              cases hw
              exact ⟨dictUpdate_keys _ _ _, fun hk =>
                dictUpdate_hkv (fun q₁ => rfl) hk⟩
      exact ⟨hkeys.trans hstep.1, fun hk => hkv (hstep.2 hk)⟩

/-- Invariants of a successful build: ids are keys, keys are distinct,
roots are keys, every record's id is a key. -/
theorem build_from_data_invariants {data : List PyVal} {t : PartnerTree}
    (h : TreeBuilder.build_from_data (.pylist data) = .ok t) :
    (∀ kv ∈ t.partners, kv.2.id = kv.1) ∧
    ((t.partners.map Prod.fst).Nodup) ∧
    (∀ r ∈ t.roots, r ∈ t.partners.map Prod.fst) ∧
    (∀ v ∈ data, recordId v ∈ t.partners.map Prod.fst) := by
  simp only [TreeBuilder.build_from_data] at h
  cases hval : ValidationUtils.validate_partner_data (.pylist data) with
  | error e => simp only [hval] at h; cases h
  | ok u =>
    cases u
    simp only [hval] at h
    simp only [TreeBuilder.build_relationships] at h
    obtain ⟨h1, h2, h3, h4, h5⟩ :=
      create_partners_invariants data ⟨[], []⟩ (fun kv hkv => absurd hkv (List.not_mem_nil kv))
        (by simp) (fun r hr => absurd hr (List.not_mem_nil r))
    cases hw : TreeBuilder.wireAll (TreeBuilder.create_partners data ⟨[], []⟩).partners
        (TreeBuilder.create_partners data ⟨[], []⟩).get_all_partners with
    | error e => simp only [hw] at h; cases h
    | ok ps =>
      simp only [hw] at h
      cases h
      obtain ⟨hkeys, hkv⟩ := wireAll_keys_hkv _ _ _ hw
      refine ⟨hkv h1, ?_, ?_, ?_⟩
      · rw [hkeys]; exact h2
      · intro r hr
        rw [hkeys]
        exact h3 r hr
      · intro v hv
        rw [hkeys]
        exact h4 v hv

/-- `_format_results` keys the output by the stringified dict keys. -/
theorem format_results_keys (ps : List (Int × Partner))
    (hkv : ∀ kv ∈ ps, kv.2.id = kv.1) :
    (CommissionCalculator.format_results ps).map Prod.fst =
      (ps.map Prod.fst).map intStr := by
  simp only [CommissionCalculator.format_results, List.map_map]
  exact List.map_congr_left (fun kv hm => congrArg intStr (hkv kv hm))

/-- **C4** (amended): on any record list the full pipeline accepts, the
output mapping has pairwise-distinct keys, its key list is exactly the
stringified key list of the partners dict — one entry per *distinct* id,
thanks to last-write-wins on duplicate record ids — every input record's
id has an entry, and every root has an entry. -/
theorem output_entries (data : List PyVal) (target : PyDate)
    (t : PartnerTree) (out : List (String × ℚ))
    (h : runPipeline (.pylist data) target = .ok (t, out)) :
    (out.map Prod.fst).Nodup ∧
    out.map Prod.fst = (t.partners.map Prod.fst).map intStr ∧
    (∀ v ∈ data, intStr (recordId v) ∈ out.map Prod.fst) ∧
    (∀ r ∈ t.roots, intStr r ∈ out.map Prod.fst) := by
  simp only [runPipeline] at h
  cases hb : TreeBuilder.build_from_data (.pylist data) with
  | error e => simp only [hb] at h; cases h
  | ok t₁ =>
    simp only [hb] at h
    cases hv : TreeValidator.validate t₁ with
    | error e => simp only [hv] at h; cases h
    | ok u =>
      cases u
      simp only [hv] at h
      cases hd : DailyProfitCalculator.calculate_daily_profits t₁ target with
      | error e => simp only [hd] at h; cases h
      | ok t₂ =>
        simp only [hd] at h
        injection h with h2
        have ht : (CommissionCalculator.calculate_commissions t₂).1 = t :=
          congrArg Prod.fst h2
        have hout : (CommissionCalculator.calculate_commissions t₂).2 = out :=
          congrArg Prod.snd h2
        obtain ⟨hkv₁, hnd₁, hroots₁, hrec₁⟩ := build_from_data_invariants hb
        simp only [DailyProfitCalculator.calculate_daily_profits] at hd
        obtain ⟨hkeys₂, hkv₂, hroots₂⟩ : t₂.partners.map Prod.fst = t₁.partners.map Prod.fst ∧
            (∀ kv ∈ t₂.partners, kv.2.id = kv.1) ∧ t₂.roots = t₁.roots := by
          cases hdays : CalendarPy.monthrangeDays target.year target.month with
          | error e => simp only [hdays] at hd; cases hd
          | ok days =>
            simp only [hdays] at hd
            cases hd
            refine ⟨?_, ?_, rfl⟩
            · simp only [List.map_map]
              exact List.map_congr_left (fun kv _ => rfl)
            · intro kv hkv
              obtain ⟨kv₀, hkv₀, rfl⟩ := List.mem_map.mp hkv
              exact hkv₁ kv₀ hkv₀
        obtain ⟨hmaskT, hrootsT⟩ := calculate_commissions_frame t₂
        have hkeysT : ((CommissionCalculator.calculate_commissions t₂).1).partners.map Prod.fst =
            t₂.partners.map Prod.fst := keys_of_maskC_eq hmaskT
        have hkvT : ∀ kv ∈ ((CommissionCalculator.calculate_commissions t₂).1).partners,
            kv.2.id = kv.1 := hkv_of_maskC_eq hmaskT hkv₂
        have hform : (CommissionCalculator.calculate_commissions t₂).2 =
            CommissionCalculator.format_results
              ((CommissionCalculator.calculate_commissions t₂).1).partners := rfl
        have houtkeys : ((CommissionCalculator.calculate_commissions t₂).2).map Prod.fst =
            (((CommissionCalculator.calculate_commissions t₂).1).partners.map Prod.fst).map
              intStr := by
          rw [hform, format_results_keys _ hkvT]
        refine ⟨?_, ?_, ?_, ?_⟩
        · rw [← hout, houtkeys, hkeysT, hkeys₂]
          exact hnd₁.map (fun a b hab => intStr_inj hab)
        · rw [← hout, ← ht]
          exact houtkeys
        · intro v hv2
          rw [← hout, houtkeys, hkeysT, hkeys₂]
          exact List.mem_map_of_mem intStr (hrec₁ v hv2)
        · intro r hr
          rw [← ht] at hr
          rw [hrootsT, hroots₂] at hr
          rw [← hout, houtkeys, hkeysT, hkeys₂]
          exact List.mem_map_of_mem intStr (hroots₁ r hr)

/-- Three input records with a duplicated id (`1`, `1`, `2`), all
otherwise valid. -/
def dupRecords : List PyVal :=
  [ .pydict [("id", .pyint 1), ("parent_id", .pyint 2), ("monthly_revenue", .pyint 10)]
  , .pydict [("id", .pyint 1), ("monthly_revenue", .pyint 20)]
  , .pydict [("id", .pyint 2), ("monthly_revenue", .pyint 30)] ]

/-- The object stored at key 1 after building `dupRecords`: the second
record's object, which overwrote the first (last write wins). -/
def dupP1 : Partner :=
  { id := 1, parent_id := none, name := .pystr "", monthly_revenue := 20,
    children := [], daily_profit := 0, total_commission := 0 }

/-- The object stored at key 2 after building `dupRecords`. -/
def dupP2 : Partner :=
  { id := 2, parent_id := none, name := .pystr "", monthly_revenue := 30,
    children := [], daily_profit := 0, total_commission := 0 }

/-- The forest built from `dupRecords`: two entries for three records. -/
def dupTree : PartnerTree := ⟨[(1, dupP1), (2, dupP2)], [1, 2]⟩

theorem dupTree_validates : TreeValidator.validate dupTree = .ok () := by
  have w₁ : CycleDetector.parentWalk dupTree.partners 1 ∅ = (false, insert 1 ∅) :=
    parentWalk_atRoot (show dictGet dupTree.partners 1 = some dupP1 from rfl)
      (by simp) rfl
  have w₂ : CycleDetector.parentWalk dupTree.partners 2 ∅ = (false, insert 2 ∅) :=
    parentWalk_atRoot (show dictGet dupTree.partners 2 = some dupP2 from rfl)
      (by simp) rfl
  have h₁ : (dupP1.id : Int) = 1 := rfl
  have h₂ : (dupP2.id : Int) = 2 := rfl
  have hv : CycleDetector.hasCyclesAux dupTree.partners [dupP1, dupP2] ∅ = none := by
    simp [CycleDetector.hasCyclesAux, h₁, h₂, w₁, w₂]
  have hall : dupTree.get_all_partners = [dupP1, dupP2] := rfl
  have hroots : dupTree.get_roots = [1, 2] := rfl
  simp [TreeValidator.validate, CycleDetector.has_cycles, hall, hv, hroots]

/-- `dupTree` after the Profit Deriver has run for July 2024 (31 days). -/
def dupTreeD : PartnerTree :=
  ⟨[(1, { dupP1 with daily_profit := 20/31 }),
    (2, { dupP2 with daily_profit := 30/31 })], [1, 2]⟩

theorem dupDerive_eval :
    DailyProfitCalculator.calculate_daily_profits dupTree ⟨2024, 7⟩ = .ok dupTreeD := by
  simp only [DailyProfitCalculator.calculate_daily_profits, CalendarPy.monthrangeDays]
  norm_num [dupTree, dupTreeD, dupP1, dupP2,
    DailyProfitCalculator.setDaily, MathUtils.safe_divide]

/-- `dupTreeD` after the Commission Aggregator: both nodes are leaves, so
both commissions are 0. -/
def dupTreeC : PartnerTree :=
  ⟨[(1, { dupP1 with daily_profit := 20/31 }),
    (2, { dupP2 with daily_profit := 30/31 })], [1, 2]⟩

/-- The output mapping for `dupRecords`: two entries for three records. -/
def dupOut : List (String × ℚ) := [("1", 0), ("2", 0)]

theorem dupCommissions_eval :
    CommissionCalculator.calculate_commissions dupTreeD = (dupTreeC, dupOut) := by
  simp only [CommissionCalculator.calculate_commissions, CommissionCalculator.reset_commissions,
    CommissionCalculator.format_results, CommissionCalculator.calcSubtree,
    PartnerTree.get_roots, dupTreeD, dupTreeC, dupOut, dupP1, dupP2]
  norm_num [dictGet, dictUpdate, Constants.COMMISSION_RATE, MathUtils.round_currency,
    MathUtils.pyRound, intStr, natStr, Prod.ext_iff]

theorem dupPipeline_eval :
    runPipeline (.pylist dupRecords) ⟨2024, 7⟩ = .ok (dupTreeC, dupOut) := by
  have hb : TreeBuilder.build_from_data (.pylist dupRecords) = .ok dupTree := rfl
  simp only [runPipeline, hb, dupTree_validates, dupDerive_eval, dupCommissions_eval]

/-- **C4** (counterexample): the pipeline accepts `dupRecords` (three
records, ids `1, 1, 2`) and outputs only two entries — dict insertion is
last-write-wins on a duplicated id, so the output has one entry per
*distinct* id, not one per input record. -/
theorem duplicate_ids_collapse :
    dupRecords.length = 3 ∧
    runPipeline (.pylist dupRecords) ⟨2024, 7⟩ = .ok (dupTreeC, dupOut) ∧
    dupOut.length = 2 :=
  ⟨rfl, dupPipeline_eval, rfl⟩

theorem output_entries_witness :
    runPipeline (.pylist dupRecords) ⟨2024, 7⟩ = .ok (dupTreeC, dupOut) ∧
    ((dupOut.map Prod.fst).Nodup ∧
     dupOut.map Prod.fst = (dupTreeC.partners.map Prod.fst).map intStr ∧
     (∀ v ∈ dupRecords, intStr (recordId v) ∈ dupOut.map Prod.fst) ∧
     (∀ r ∈ dupTreeC.roots, intStr r ∈ dupOut.map Prod.fst)) :=
  ⟨dupPipeline_eval, output_entries dupRecords ⟨2024, 7⟩ dupTreeC dupOut dupPipeline_eval⟩

theorem commission_correctness_witness :
    (∀ kv ∈ c1Tree.partners, kv.2.id = kv.1) ∧
    unflattenForest c1Tree = some c1Forest ∧
    (PTree.idsList c1Forest).Nodup ∧
    (∀ S ∈ PTree.subtreesList c1Forest,
      strLookup (CommissionCalculator.calculate_commissions c1Tree).2 (intStr S.rootId) =
        some (MathUtils.round_currency
          (Constants.COMMISSION_RATE * PTree.strictDescProfit S))) := by
  have h1 : ∀ kv ∈ c1Tree.partners, kv.2.id = kv.1 := by
    intro kv h
    rcases List.mem_cons.mp h with rfl | h
    · rfl
    rcases List.mem_cons.mp h with rfl | h
    · rfl
    cases h
  have h3 : (PTree.idsList c1Forest).Nodup := by
    simp [c1Forest, PTree.idsList, PTree.ids, c1Root, c1Child]
  exact ⟨h1, rfl, h3, (commission_correctness c1Tree c1Forest h1 rfl h3).1⟩

/-! ## Witnesses for the remaining hypothesis-carrying claim theorems -/

theorem daily_profit_formula_witness :
    (1 ≤ (PyDate.mk 2024 7).month ∧ (PyDate.mk 2024 7).month ≤ 12) ∧
    ((∃ days : Nat,
      CalendarPy.monthrangeDays (PyDate.mk 2024 7).year (PyDate.mk 2024 7).month = .ok days ∧
      days = (if (PyDate.mk 2024 7).month = 2 then
                (if CalendarPy.isleap (PyDate.mk 2024 7).year then 29 else 28)
              else if (PyDate.mk 2024 7).month = 4 ∨ (PyDate.mk 2024 7).month = 6 ∨
                  (PyDate.mk 2024 7).month = 9 ∨ (PyDate.mk 2024 7).month = 11 then 30
              else 31) ∧
      DailyProfitCalculator.calculate_daily_profits negTree (PyDate.mk 2024 7) =
        .ok { negTree with partners := negTree.partners.map (fun kv =>
          (kv.1, { kv.2 with daily_profit := kv.2.monthly_revenue / (days : ℚ) })) } ∧
      DailyProfitCalculator.calculate_daily_profits negTree (PyDate.mk 2024 7) =
        .ok { negTree with
              partners := negTree.partners.map (DailyProfitCalculator.setDaily (days : ℚ)) }) ∧
    (∀ x : ℚ, MathUtils.safe_divide x 0 = 0)) :=
  ⟨⟨by decide, by decide⟩,
   daily_profit_formula negTree (PyDate.mk 2024 7) ⟨by decide, by decide⟩⟩

theorem engine_state_reset_witness :
    (CommissionEngine.load_partners none (.pylist [])).2 = .error .emptyData ∧
    ((CommissionEngine.load_partners none (.pylist [])).1 = none ∧
     (∀ d, CommissionEngine.calculate_daily_profits none d = (none, .error .notLoaded)) ∧
     CommissionEngine.calculate_commissions none = (none, .error .notLoaded) ∧
     CommissionEngine.get_stats none = .error .notLoaded ∧
     CommissionEngine.get_level_distribution none = .error .notLoaded) :=
  ⟨rfl, engine_state_reset none (.pylist []) .emptyData rfl⟩

theorem negative_revenue_flows_witness :
    (-1 : ℚ) < 0 ∧
    (ValidationUtils.validate_partner_data
      (.pylist [.pydict [("id", .pyint 7), ("monthly_revenue", .pyfloat (-1))]]) = .ok () ∧
    (runPipeline negRevenueData ⟨2024, 7⟩).toOption.map Prod.snd =
      some [("1", -(1 : ℚ)/20), ("2", 0)] ∧
    -(1 : ℚ)/20 < 0) :=
  ⟨by norm_num, negative_revenue_flows (-1) (by norm_num)⟩

theorem passes_frame_effects_witness :
    DailyProfitCalculator.calculate_daily_profits dupTree ⟨2024, 7⟩ = .ok dupTreeD ∧
    ((dupTreeD.partners.map maskD = dupTree.partners.map maskD ∧
      dupTreeD.roots = dupTree.roots) ∧
     (((CommissionCalculator.calculate_commissions dupTree).1).partners.map maskC =
        dupTree.partners.map maskC ∧
      ((CommissionCalculator.calculate_commissions dupTree).1).roots = dupTree.roots)) :=
  ⟨dupDerive_eval, passes_frame_effects dupTree ⟨2024, 7⟩ dupTreeD dupDerive_eval⟩

theorem deriver_aggregator_idempotent_witness :
    DailyProfitCalculator.calculate_daily_profits dupTree ⟨2024, 7⟩ = .ok dupTreeD ∧
    CommissionCalculator.calculate_commissions dupTreeD = (dupTreeC, dupOut) ∧
    (∃ t₃, DailyProfitCalculator.calculate_daily_profits dupTreeC ⟨2024, 7⟩ = .ok t₃ ∧
      CommissionCalculator.calculate_commissions t₃ = (dupTreeC, dupOut)) :=
  ⟨dupDerive_eval, dupCommissions_eval,
   deriver_aggregator_idempotent dupTree ⟨2024, 7⟩ dupTreeD dupTreeC dupOut
     dupDerive_eval dupCommissions_eval⟩

theorem wiring_exactness_witness :
    (∀ kv ∈ dupTree.partners, kv.2.children = []) ∧
    ((∀ o, dupTree.get_all_partners.find? (isOrphan dupTree.partners) = some o →
      ∃ pv, o.parent_id = some pv ∧
        TreeBuilder.build_relationships dupTree = .error (.parentNotFound pv o.id)) ∧
    (dupTree.get_all_partners.find? (isOrphan dupTree.partners) = none →
      ∃ t₁, TreeBuilder.build_relationships dupTree = .ok t₁ ∧ t₁.roots = dupTree.roots ∧
        t₁.partners.map Prod.fst = dupTree.partners.map Prod.fst ∧
        ∀ k p, dictGet t₁.partners k = some p →
          ∃ p₀, dictGet dupTree.partners k = some p₀ ∧
            p = { p₀ with children :=
              (dupTree.get_all_partners.filter
                (fun c => parentKey c = some k)).map Partner.id })) := by
  have hc0 : ∀ kv ∈ dupTree.partners, kv.2.children = [] := by
    intro kv h
    rcases List.mem_cons.mp h with rfl | h
    · rfl
    rcases List.mem_cons.mp h with rfl | h
    · rfl
    cases h
  exact ⟨hc0, wiring_exactness dupTree hc0⟩

theorem validator_contract_witness :
    (∀ kv ∈ dupTree.partners, kv.2.id = kv.1) ∧
    (((∃ s, TreeValidator.validate dupTree = .error (.cycleDetected s)) ↔
        cycleExists dupTree.partners) ∧
    (∀ s, TreeValidator.validate dupTree = .error (.cycleDetected s) →
      ∃ i, Relation.ReflTransGen (pstep dupTree.partners) s i ∧
        Relation.TransGen (pstep dupTree.partners) i i) ∧
    (¬ cycleExists dupTree.partners → dupTree.get_roots = [] →
      TreeValidator.validate dupTree = .error .noRootPartners) ∧
    (¬ cycleExists dupTree.partners → dupTree.get_roots ≠ [] →
      TreeValidator.validate dupTree = .ok ()) ∧
    (∀ i p pv, dictGet dupTree.partners i = some p → p.parent_id = some pv →
      pyKey pv = some i →
      ∃ s, TreeValidator.validate dupTree = .error (.cycleDetected s))) := by
  have hkv : ∀ kv ∈ dupTree.partners, kv.2.id = kv.1 := by
    intro kv h
    rcases List.mem_cons.mp h with rfl | h
    · rfl
    rcases List.mem_cons.mp h with rfl | h
    · rfl
    cases h
  exact ⟨hkv, validator_contract dupTree hkv⟩

end MLM
